import Mathlib

/-!
Verification of the plan-execution core of the `model-enhancement-servers`
repository (the seqthink runtime).  The definitions below are a shallow
embedding of the TypeScript runtime source (`runPlan`, `retryWithBackoff`,
`replayPlan` and the trace / step / registry data model).  Asynchronous
effects are modelled by explicit state passing: a `RunState` carries the
wall clock (`now`, advanced only by the declared durations of external
calls and by backoff delays), the append-only trace event list, the
variable bindings object and an arbitrary external-world state `σ`
threaded through bridge and tool-handler invocations (so handlers may be
stateful, e.g. call counters).  A ghost log (`glog`) instruments the run
with one entry per step start, per failed attempt and per successful
completion; it is proof instrumentation only and mirrors no source state.
-/

namespace SeqThink

/-- Output values flowing through bindings (`any` in the source).  A small
closed universe suffices for the runtime, which never inspects outputs. -/
inductive Val where
  | vstr : String → Val
  | vint : Int → Val
  | vnone : Val
deriving DecidableEq, Repr

/-- Token usage telemetry attached to `think:end` events. -/
structure TokenUsage where
  prompt : Nat
  completion : Nat
deriving DecidableEq, Repr

/-- `ThinkStep` of the source: `{ id, prompt, system?, stop? }`. -/
structure ThinkStep where
  id : String
  prompt : String
  system : Option String := none
  stop : Option (List String) := none
deriving DecidableEq, Repr

/-- `ToolStep` of the source: `{ id, toolName, input, assign? }`. -/
structure ToolStep where
  id : String
  toolName : String
  input : Val
  assign : Option String := none
deriving DecidableEq, Repr

/-- The tagged step union, discriminated by `kind` in the source. -/
inductive ThoughtStep where
  | think : ThinkStep → ThoughtStep
  | tool : ToolStep → ThoughtStep
deriving DecidableEq, Repr

/-- The step id of either kind of step. -/
def stepId : ThoughtStep → String
  | .think t => t.id
  | .tool t => t.id

/-- `ThoughtPlan { id, steps, metadata? }`; metadata is opaque and unread. -/
structure ThoughtPlan where
  id : String
  steps : List ThoughtStep
  metadata : Option (List (String × Val)) := none
deriving DecidableEq, Repr

/-- The trace event union of the source, tags as in `TraceEvent`. -/
inductive TraceEvent where
  | planStart (ts : Nat) (planId : String)
  | planEnd (ts : Nat) (planId : String) (ok : Bool)
  | thinkStart (ts : Nat) (stepId : String) (prompt : String)
  | thinkEnd (ts : Nat) (stepId : String) (output : String) (usage : Option TokenUsage)
  | toolStart (ts : Nat) (stepId : String) (toolName : String) (input : Val)
  | toolEnd (ts : Nat) (stepId : String) (toolName : String) (output : Val) (durationMs : Nat)
  | error (ts : Nat) (stepId : Option String) (message : String) (stack : Option String)
deriving DecidableEq, Repr

/-- `TraceJSON { events, version: 1 }`, the serialized trace document. -/
structure TraceJSON where
  version : Nat
  events : List TraceEvent
deriving DecidableEq, Repr

/-- Variable bindings: a JS object, modelled as an insertion-ordered
association list with overwriting assignment. -/
abbrev Vars := List (String × Val)

/-- JS object property write `vars[k] = v`: overwrite in place if the key
exists, else append. -/
def varsSet (m : Vars) (k : String) (v : Val) : Vars :=
  if (m.any fun p => p.1 == k) then m.map (fun p => if p.1 == k then (k, v) else p)
  else m ++ [(k, v)]

/-- JS object property read `vars[k]`. -/
def varsGet (m : Vars) (k : String) : Option Val :=
  (m.find? fun p => p.1 == k).map (·.2)

/-- Result of `bridge.complete`: `{ text, usage? }`. -/
structure BridgeResult where
  text : String
  usage : Option TokenUsage := none
deriving DecidableEq, Repr

/-- The bridge contract `complete(prompt, system?, { stop? })`.  The call is
a state transformer on the external world `σ` returning the result, the
elapsed duration in ms (advancing the clock) and the new world.  Note the
runner passes exactly `(prompt, system, stop)` to the bridge: no
cancellation signal reaches it (source line 122). -/
structure Bridge (σ : Type) where
  complete : String → Option String → Option (List String) →
    σ → Except String BridgeResult × Nat × σ

/-- The context handed to a tool handler.  The source passes
`{ trace, env, logger, vars, signal }`; `trace` and `logger` are only
exposed, never read back by the runner, and are elided here.  The
cancellation signal is represented by the one datum it carries: it aborts
`signalAbortAfterMs` ms after the attempt starts (the runner's
`AbortController` + `setTimeout(maxStepMs)` pair). -/
structure ToolCtx where
  env : List (String × String)
  vars : Vars
  signalAbortAfterMs : Nat

/-- `ToolRegistration { name, inputSchema?, outputSchema?, handler }`. -/
structure ToolRegistration (σ : Type) where
  name : String
  inputSchema : Option String := none
  outputSchema : Option String := none
  handler : Val → ToolCtx → σ → Except String Val × Nat × σ

/-- `RuntimeOptions` plus the `env`/`bridge` extras accepted by `runPlan`. -/
structure RuntimeOptions (σ : Type) where
  maxStepMs : Nat := 120000
  retries : Int := 0
  onTokenUsage : Option (TokenUsage → σ → σ) := none
  env : Option (List (String × String)) := none
  bridge : Option (Bridge σ) := none

/-- Runtime configuration as resolved at the top of `runPlan` (defaults
applied, `env` falling back to the process environment). -/
structure RunCtx (σ : Type) where
  registry : List (ToolRegistration σ)
  bridge : Option (Bridge σ)
  env : List (String × String)
  maxStepMs : Nat
  retries : Int
  onTokenUsage : Option (TokenUsage → σ → σ)

/-- Ghost instrumentation entries: a step began (its single `*:start`
emission), an attempt failed (each `onError` / unregistered-tool error
emission), a step completed (its single `*:end` emission). -/
inductive GEntry where
  | gstart (id : String)
  | gfail (id : String)
  | gdone (id : String)
deriving DecidableEq, Repr

/-- The execution state of one run: logical wall clock, the in-memory
trace (append-only list, as pushed by `InMemoryTrace.add`), the bindings
object, the external world, and the ghost log. -/
structure RunState (σ : Type) where
  now : Nat
  events : List TraceEvent
  vars : Vars
  ext : σ
  glog : List GEntry

/-- `trace.add(e)` (no redactor is installed by `runPlan`). -/
def addEvent (e : TraceEvent) (st : RunState σ) : RunState σ :=
  { st with events := st.events ++ [e] }

/-- Push a ghost entry (proof instrumentation only). -/
def gpush (g : GEntry) (st : RunState σ) : RunState σ :=
  { st with glog := st.glog ++ [g] }

/-- `registry.get(name)`: the registry map keyed by registration name. -/
def registryFind (registry : List (ToolRegistration σ)) (name : String) :
    Option (ToolRegistration σ) :=
  registry.find? fun r => r.name == name

/-- The `onError` callback built by `runPlan` for both step kinds: append
an `error` event carrying the failure message (the JS `stack` is
environment-dependent and modelled as absent). -/
def mkOnError (id : String) (m : String) (st : RunState σ) : RunState σ :=
  gpush (.gfail id) (addEvent (.error st.now (some id) m none) st)

/-- One attempt of a think step (the `runOnce` closure, source lines
117-130).  If no bridge is configured the attempt throws the
configuration error.  Otherwise `bridge.complete(prompt, system, {stop})`
runs; the `AbortController` + `setTimeout(maxStepMs)` pair created around
it is elided because its signal is never given to the bridge and aborting
it has no observable effect.  On success the text is bound at the step
id, usage is forwarded to the callback, and `think:end` is appended. -/
def runOnceThink (bridge : Option (Bridge σ)) (onTokenUsage : Option (TokenUsage → σ → σ))
    (t : ThinkStep) (st : RunState σ) : Except String Unit × RunState σ :=
  match bridge with
  | none => (.error "No bridge provided for think step", st)
  | some b =>
    match b.complete t.prompt t.system t.stop st.ext with
    | (.error e, d, x) => (.error e, { st with now := st.now + d, ext := x })
    | (.ok res, d, x) =>
      let st₁ : RunState σ := { st with now := st.now + d, ext := x }
      let st₂ : RunState σ := { st₁ with vars := varsSet st₁.vars t.id (.vstr res.text) }
      let st₃ : RunState σ :=
        match onTokenUsage, res.usage with
        | some f, some u => { st₂ with ext := f u st₂.ext }
        | _, _ => st₂
      (.ok (), addEvent (.thinkEnd st₃.now t.id res.text res.usage) (gpush (.gdone t.id) st₃))

/-- One attempt of a registered tool step (the `runOnce` closure, source
lines 142-154).  The handler receives the context with the cancellation
signal scoped to this attempt (aborting `maxStepMs` after the attempt
starts); its outcome is the attempt's outcome.  On success the output is
bound at the step id and at the alias when `assign` is declared, then
`tool:end` is appended with the duration measured from `started`. -/
def runOnceTool (C : RunCtx σ) (reg : ToolRegistration σ) (t : ToolStep) (started : Nat)
    (st : RunState σ) : Except String Unit × RunState σ :=
  match reg.handler t.input { env := C.env, vars := st.vars, signalAbortAfterMs := C.maxStepMs } st.ext with
  | (.error e, d, x) => (.error e, { st with now := st.now + d, ext := x })
  | (.ok out, d, x) =>
    let st₁ : RunState σ := { st with now := st.now + d, ext := x }
    let st₂ : RunState σ := { st₁ with vars := varsSet st₁.vars t.id out }
    let st₃ : RunState σ :=
      match t.assign with
      | some a => { st₂ with vars := varsSet st₂.vars a out }
      | none => st₂
    let dur : Nat := st₃.now - started
    (.ok (), addEvent (.toolEnd st₃.now t.id reg.name out dur) (gpush (.gdone t.id) st₃))

/-- The `while (true)` body of `retryWithBackoff`, indexed structurally by
the remaining retry budget `rem = (retries - attempt).toNat`; `attempt`
is carried for the backoff exponent.  On failure the `onError` callback
records the error; if the budget is exhausted (`attempt >= retries` in
the source) the error is re-raised, otherwise the loop sleeps
`2^attempt * 1000` ms and retries. -/
def retryAux (fn : RunState σ → Except String Unit × RunState σ)
    (onError : String → RunState σ → RunState σ) :
    Nat → Nat → RunState σ → Except String Unit × RunState σ
  | attempt, rem, st =>
    match fn st with
    | (.ok _, st') => (.ok (), st')
    | (.error e, st') =>
      let st₂ := onError e st'
      match rem with
      | 0 => (.error e, st₂)
      | rem' + 1 =>
        retryAux fn onError (attempt + 1) rem' { st₂ with now := st₂.now + 2 ^ attempt * 1000 }

/-- `retryWithBackoff(fn, retries, onError)` (source lines 163-177):
starts at attempt 0 with budget `retries.toNat` (a negative `retries`
gives no retries, as `attempt >= retries` is then immediately true). -/
def retryWithBackoff (fn : RunState σ → Except String Unit × RunState σ) (retries : Int)
    (onError : String → RunState σ → RunState σ) (st : RunState σ) :
    Except String Unit × RunState σ :=
  retryAux fn onError 0 retries.toNat st

/-- One iteration of the `for (const step of plan.steps)` loop.  A think
step emits `think:start` then runs its attempt under the retry wrapper.
A tool step first resolves the registry: if absent, an `error` event is
appended and the failure thrown directly — outside the retry wrapper;
otherwise `tool:start` is emitted, `started` is latched, and the attempt
runs under the retry wrapper. -/
def runStep (C : RunCtx σ) (s : ThoughtStep) (st : RunState σ) :
    Except String Unit × RunState σ :=
  match s with
  | .think t =>
    let st₁ := addEvent (.thinkStart st.now t.id t.prompt) (gpush (.gstart t.id) st)
    retryWithBackoff (runOnceThink C.bridge C.onTokenUsage t) C.retries (mkOnError t.id) st₁
  | .tool t =>
    match registryFind C.registry t.toolName with
    | none =>
      let msg := "Tool not registered: " ++ t.toolName
      (.error msg, gpush (.gfail t.id) (addEvent (.error st.now (some t.id) msg none) st))
    | some reg =>
      let st₁ := addEvent (.toolStart st.now t.id reg.name t.input) (gpush (.gstart t.id) st)
      let started := st₁.now
      retryWithBackoff (runOnceTool C reg t started) C.retries (mkOnError t.id) st₁

/-- The step loop: strictly sequential, aborting on the first error. -/
def runSteps (C : RunCtx σ) : List ThoughtStep → RunState σ →
    Except String Unit × RunState σ
  | [], st => (.ok (), st)
  | s :: rest, st =>
    match runStep C s st with
    | (.ok _, st') => runSteps C rest st'
    | (.error e, st') => (.error e, st')

/-- `runPlan(plan, opts)` (source lines 102-161).  `procEnv` is the
ambient process environment (`process.env`), used only as the default
when `opts.env` is omitted; `now₀` is the ambient wall clock at entry and
`ext₀` the initial external world.  A fresh trace and empty bindings are
created; `plan:start` is emitted; the steps run in order; on full success
`plan:end { ok: true }` is appended and `{ vars, trace }` returned; on
failure the error propagates (no `plan:end`). -/
def runPlan (plan : ThoughtPlan) (registry : List (ToolRegistration σ))
    (opts : RuntimeOptions σ) (procEnv : List (String × String)) (now₀ : Nat) (ext₀ : σ) :
    Except String (Vars × List TraceEvent) × RunState σ :=
  let C : RunCtx σ :=
    { registry := registry, bridge := opts.bridge, env := opts.env.getD procEnv,
      maxStepMs := opts.maxStepMs, retries := opts.retries, onTokenUsage := opts.onTokenUsage }
  let st₀ : RunState σ := { now := now₀, events := [], vars := [], ext := ext₀, glog := [] }
  let st₁ := addEvent (.planStart now₀ plan.id) st₀
  match runSteps C plan.steps st₁ with
  | (.ok _, st₂) =>
    let st₃ := addEvent (.planEnd st₂.now plan.id true) st₂
    (.ok (st₃.vars, st₃.events), st₃)
  | (.error e, st₂) => (.error e, st₂)

/-- Kind-specific completion-event match used by `replayPlan`:
`e.type === 'think:end' && e.stepId === step.id` for a think step,
`e.type === 'tool:end' && e.stepId === step.id` for a tool step. -/
def isEndOf : ThoughtStep → TraceEvent → Bool
  | .think t, .thinkEnd _ sid _ _ => sid == t.id
  | .tool t, .toolEnd _ sid _ _ _ => sid == t.id
  | _, _ => false

/-- The recorded output carried by a completion event (think outputs are
strings, injected into `Val`). -/
def endVal : TraceEvent → Option Val
  | .thinkEnd _ _ out _ => some (.vstr out)
  | .toolEnd _ _ _ out _ => some out
  | _ => none

/-- The "missing event" error message of `replayPlan`. -/
def missingMsg : ThoughtStep → String
  | .think t => "Missing think:end for step " ++ t.id
  | .tool t => "Missing tool:end for step " ++ t.id

/-- The bindings writes one executed (or replayed) step performs: the
output at the step id and, for a tool step with `assign`, also at the
alias (id first, then alias, as in the source). -/
def writeStep : ThoughtStep → Val → Vars → Vars
  | .think t, v, m => varsSet m t.id v
  | .tool t, v, m =>
    match t.assign with
    | some a => varsSet (varsSet m t.id v) a v
    | none => varsSet m t.id v

/-- The per-step loop of `replayPlan` (source lines 181-193): for each
step in plan order, `prior.events.find(...)` locates the first matching
completion event; its output is copied into the bindings (and the alias);
a missing event is a fatal error naming the step. -/
def replaySteps (events : List TraceEvent) : List ThoughtStep → Vars → Except String Vars
  | [], vars => .ok vars
  | s :: rest, vars =>
    match events.find? (isEndOf s) with
    | some e =>
      match endVal e with
      | some v => replaySteps events rest (writeStep s v vars)
      | none => .error (missingMsg s)
    | none => .error (missingMsg s)

/-- `replayPlan(plan, prior)`: pure reconstruction of the bindings from a
prior trace.  By construction it takes no registry and no bridge (so can
invoke neither), does not alter the supplied trace (there is no state to
alter), and is a function of exactly `(plan, prior)`. -/
def replayPlan (plan : ThoughtPlan) (prior : TraceJSON) : Except String Vars :=
  replaySteps prior.events plan.steps []

/-- `isOk` on the runtime's result type. -/
def exOk : Except String α → Bool
  | .ok _ => true
  | .error _ => false

/-- Step ids are unique within a plan — the data-model invariant of the
spec (declared, not validated by the runner). -/
def uniqueIds (plan : ThoughtPlan) : Prop :=
  (plan.steps.map stepId).Nodup

instance (plan : ThoughtPlan) : Decidable (uniqueIds plan) := by
  unfold uniqueIds; infer_instance

/-- The binding keys a step can write: its id, plus the alias of a tool
step declaring `assign`. -/
def writesKeys : ThoughtStep → List String
  | .think t => [t.id]
  | .tool t =>
    match t.assign with
    | some a => [t.id, a]
    | none => [t.id]

/-- Events carrying a `stepId` (everything except the plan-level pair). -/
def evTag : TraceEvent → Option String
  | .thinkStart _ sid _ => some sid
  | .thinkEnd _ sid _ _ => some sid
  | .toolStart _ sid _ _ => some sid
  | .toolEnd _ sid _ _ _ => some sid
  | .error _ sid _ _ => sid
  | _ => none

def isPlanEndEv : TraceEvent → Bool
  | .planEnd _ _ _ => true
  | _ => false

def isErrorEv : TraceEvent → Bool
  | .error _ _ _ _ => true
  | _ => false

def isErrorEvFor (id : String) : TraceEvent → Bool
  | .error _ sid _ _ => sid == some id
  | _ => false

def isStartEvFor (id : String) : TraceEvent → Bool
  | .thinkStart _ sid _ => sid == id
  | .toolStart _ sid _ _ => sid == id
  | _ => false

def isEndEvFor (id : String) : TraceEvent → Bool
  | .thinkEnd _ sid _ _ => sid == id
  | .toolEnd _ sid _ _ _ => sid == id
  | _ => false

/-- Any completion event, of either kind. -/
def isEndAny : TraceEvent → Bool
  | .thinkEnd _ _ _ _ => true
  | .toolEnd _ _ _ _ _ => true
  | _ => false

def isGfail : GEntry → Bool
  | .gfail _ => true
  | _ => false

def isGfailFor (id : String) : GEntry → Bool
  | .gfail i => i == id
  | _ => false

def isGstartFor (id : String) : GEntry → Bool
  | .gstart i => i == id
  | _ => false

def isGdoneFor (id : String) : GEntry → Bool
  | .gdone i => i == id
  | _ => false

def envLookup (env : List (String × String)) (k : String) : Option String :=
  (env.find? fun p => p.1 == k).map (·.2)

/-- The events `Δ` and ghost entries `γ` appended by one `runStep` call:
all tagged with the step's id; start/end/error event counts in lockstep
with the ghost `gstart`/`gdone`/`gfail` counts; at most one start; a
completion exactly on success; the terminating message recorded as an
`error` event; bindings written only by the successful attempt. -/
def StepShape (s : ThoughtStep) (st st' : RunState σ) (r : Except String Unit) : Prop :=
  ∃ Δ γ,
    st'.events = st.events ++ Δ ∧
    st'.glog = st.glog ++ γ ∧
    (∀ e ∈ Δ, evTag e = some (stepId s)) ∧
    (∀ id, Δ.countP (isStartEvFor id) = γ.countP (isGstartFor id)) ∧
    (∀ id, Δ.countP (isEndEvFor id) = γ.countP (isGdoneFor id)) ∧
    (∀ id, Δ.countP (isErrorEvFor id) = γ.countP (isGfailFor id)) ∧
    Δ.countP isErrorEv = γ.countP isGfail ∧
    γ.countP (isGstartFor (stepId s)) ≤ 1 ∧
    γ.countP (isGdoneFor (stepId s)) = (if exOk r then 1 else 0) ∧
    (∀ m, r = .error m → ∃ ts, TraceEvent.error ts (some (stepId s)) m none ∈ Δ) ∧
    (∀ u, r = .ok u → ∃ Δ₁ eE out, Δ = Δ₁ ++ [eE] ∧ (∀ e ∈ Δ₁, isEndAny e = false) ∧
      isEndOf s eE = true ∧ endVal eE = some out ∧ st'.vars = writeStep s out st.vars) ∧
    (∀ m, r = .error m → st'.vars = st.vars)

/-- The runtime configuration `runPlan` resolves from its options (defaults
applied; `env` defaulting to the process environment). -/
def planCtx (registry : List (ToolRegistration σ)) (opts : RuntimeOptions σ)
    (procEnv : List (String × String)) : RunCtx σ :=
  { registry := registry, bridge := opts.bridge, env := opts.env.getD procEnv,
    maxStepMs := opts.maxStepMs, retries := opts.retries, onTokenUsage := opts.onTokenUsage }

/-- The state right after `runPlan` creates its fresh trace and bindings and
emits `plan:start`. -/
def planInit (plan : ThoughtPlan) (now₀ : Nat) (ext₀ : σ) : RunState σ :=
  { now := now₀, events := [.planStart now₀ plan.id], vars := [], ext := ext₀, glog := [] }

/-! ### Concrete fixtures (test bridges, tools and plans used to evaluate
the runtime at specific inputs; mirroring the repository's own test
fixtures). -/

def defOpts : RuntimeOptions Unit := {}

def echoBridge : Bridge Unit :=
  { complete := fun p _ _ u => (.ok { text := "ECHO:" ++ p }, 0, u) }

def addOneReg : ToolRegistration Unit :=
  { name := "add_one",
    handler := fun v _ u =>
      (match v with
       | .vint n => .ok (.vint (n + 1))
       | _ => .ok .vnone, 0, u) }

/-- The spec's concrete scenario: a think step then an aliased tool step. -/
def wPlan : ThoughtPlan :=
  { id := "p1",
    steps := [.think { id := "t", prompt := "hello" },
              .tool { id := "u", toolName := "add_one", input := .vint 41,
                      assign := some "answer" }] }

def wOpts : RuntimeOptions Unit := { bridge := some echoBridge }

def wRun : Except String (Vars × List TraceEvent) × RunState Unit :=
  runPlan wPlan [addOneReg] wOpts [] 0 ()

def regOne : ToolRegistration Unit :=
  { name := "one", handler := fun _ _ u => (.ok (.vint 1), 0, u) }

def regTwo : ToolRegistration Unit :=
  { name := "two", handler := fun _ _ u => (.ok (.vint 2), 0, u) }

/-- An earlier step's alias collides with a later unregistered step's id. -/
def aliasPlan : ThoughtPlan :=
  { id := "pa",
    steps := [.tool { id := "a", toolName := "one", input := .vnone, assign := some "x" },
              .tool { id := "x", toolName := "ghost", input := .vnone }] }

/-- A later step whose id equals an earlier step's alias. -/
def overwritePlan : ThoughtPlan :=
  { id := "po",
    steps := [.tool { id := "a", toolName := "one", input := .vnone, assign := some "b" },
              .tool { id := "b", toolName := "two", input := .vnone }] }

def thinkPlan : ThoughtPlan :=
  { id := "pt", steps := [.think { id := "a", prompt := "x" }] }

/-- A bridge whose completion takes far longer than any timeout. -/
def slowBridge : Bridge Unit :=
  { complete := fun _ _ _ u => (.ok { text := "hi" }, 200001, u) }

def ghostPlan : ThoughtPlan :=
  { id := "pg", steps := [.tool { id := "g", toolName := "ghost", input := .vnone }] }

/-- A tool handler that reads the environment of its context. -/
def envReg : ToolRegistration Unit :=
  { name := "getenv",
    handler := fun _ ctx u => (.ok (.vstr ((envLookup ctx.env "HOME").getD "")), 0, u) }

def envPlan : ThoughtPlan :=
  { id := "pe", steps := [.tool { id := "g", toolName := "getenv", input := .vnone }] }

def opts9 : RuntimeOptions Unit := { env := some [("HOME", "/x")] }

/-- A stateful handler (over `σ := Nat`, its call counter) failing on its
first `r` calls and succeeding afterwards. -/
def flakyReg (r : Nat) : ToolRegistration Nat :=
  { name := "flaky",
    handler := fun _ _ c => (if c < r then .error "boom" else .ok (.vint 7), 0, c + 1) }

def flakyPlan : ThoughtPlan :=
  { id := "pf", steps := [.tool { id := "s", toolName := "flaky", input := .vnone }] }

/-- A tool handler that succeeds but takes longer than any timeout. -/
def slowReg : ToolRegistration Unit :=
  { name := "slow", handler := fun _ _ u => (.ok (.vint 5), 999999, u) }

def slowPlan : ThoughtPlan :=
  { id := "ps", steps := [.tool { id := "w", toolName := "slow", input := .vnone }] }

/-! ### List helpers -/

theorem find?_append_none {α} (p : α → Bool) (l₁ l₂ : List α)
    (h : ∀ a ∈ l₁, p a = false) :
    List.find? p (l₁ ++ l₂) = List.find? p l₂ := by
  induction l₁ with
  | nil => rfl
  | cons a l ih =>
    have ha : p a = false := h a (by simp)
    simp only [List.cons_append, List.find?, ha]
    exact ih fun x hx => h x (by simp [hx])

theorem countP_replicate {α} (p : α → Bool) (n : Nat) (x : α) :
    (List.replicate n x).countP p = if p x then n else 0 := by
  induction n with
  | zero => simp
  | succ n ih =>
    rw [List.replicate_succ, List.countP_cons, ih]
    by_cases hp : p x = true <;> simp [hp]

theorem countP_forall_eq {α} (p : α → Bool) (l : List α) (b : Bool)
    (h : ∀ a ∈ l, p a = b) : l.countP p = if b then l.length else 0 := by
  cases b with
  | true => simp only [if_true]; exact List.countP_eq_length.mpr h
  | false =>
    simp only [if_false, Bool.false_eq_true]
    exact List.countP_eq_zero.mpr fun a ha => by simp [h a ha]

/-! ### Bindings lemmas -/

theorem find?_overwrite (m : Vars) (k : String) (v : Val)
    (h : (m.any fun p => p.1 == k) = true) :
    List.find? (fun p => p.1 == k) (m.map fun p => if p.1 == k then (k, v) else p) =
      some (k, v) := by
  induction m with
  | nil => simp at h
  | cons a m ih =>
    simp only [List.any_cons, Bool.or_eq_true] at h
    by_cases ha : (a.1 == k) = true
    · rw [List.map_cons, if_pos ha]
      exact List.find?_cons_of_pos (p := fun q : String × Val => q.1 == k) _ (by simp)
    · rw [List.map_cons, if_neg ha, List.find?_cons_of_neg (p := fun q : String × Val => q.1 == k) _ ha]
      rcases h with h | h
      · exact absurd h ha
      · exact ih h

theorem find?_overwrite_ne (m : Vars) (k k' : String) (v : Val) (hne : k' ≠ k) :
    List.find? (fun p => p.1 == k') (m.map fun p => if p.1 == k then (k, v) else p) =
      List.find? (fun p => p.1 == k') m := by
  induction m with
  | nil => rfl
  | cons a m ih =>
    rw [List.map_cons]
    by_cases ha : (a.1 == k) = true
    · have hak : a.1 = k := by simpa using ha
      have h1 : ((k, v).1 == k') = false := by simp [Ne.symm hne]
      have h2 : (a.1 == k') = false := by simp [hak, Ne.symm hne]
      rw [if_pos ha, List.find?_cons_of_neg (p := fun q : String × Val => q.1 == k') _ (by simp [h1]),
        List.find?_cons_of_neg (p := fun q : String × Val => q.1 == k') _ (by simp [h2])]
      exact ih
    · rw [if_neg ha]
      by_cases ha' : (a.1 == k') = true
      · rw [List.find?_cons_of_pos (p := fun q : String × Val => q.1 == k') _ ha',
          List.find?_cons_of_pos (p := fun q : String × Val => q.1 == k') _ ha']
      · rw [List.find?_cons_of_neg (p := fun q : String × Val => q.1 == k') _ ha',
          List.find?_cons_of_neg (p := fun q : String × Val => q.1 == k') _ ha']
        exact ih

theorem varsGet_set_self (m : Vars) (k : String) (v : Val) :
    varsGet (varsSet m k v) k = some v := by
  unfold varsSet varsGet
  by_cases h : (m.any fun p => p.1 == k) = true
  · rw [if_pos h, find?_overwrite m k v h]
    rfl
  · rw [if_neg h, find?_append_none]
    · simp [List.find?]
    · intro a ha
      have h' : (m.any fun p => p.1 == k) = false := by
        revert h
        cases m.any fun p => p.1 == k <;> simp
      have hfa := List.any_eq_false.mp h' a ha
      revert hfa
      cases a.1 == k <;> simp

theorem varsGet_set_ne (m : Vars) (k k' : String) (v : Val) (hne : k' ≠ k) :
    varsGet (varsSet m k v) k' = varsGet m k' := by
  unfold varsSet varsGet
  by_cases h : (m.any fun p => p.1 == k) = true
  · rw [if_pos h, find?_overwrite_ne m k k' v hne]
  · rw [if_neg h]
    rcases hf : List.find? (fun p => p.1 == k') m with _ | r
    · rw [find?_append_none]
      · have hk : ((k, v).1 == k') = false := by simp [Ne.symm hne]
        rw [hf]
        simp [List.find?, hk]
      · intro a ha
        have hfa := List.find?_eq_none.mp hf a ha
        revert hfa
        cases a.1 == k' <;> simp
    · rw [List.find?_append, hf]
      rfl

/-! ### Event classifier lemmas -/

theorem isEndOf_tag {s : ThoughtStep} {e : TraceEvent} (h : isEndOf s e = true) :
    evTag e = some (stepId s) := by
  cases s <;> cases e <;> simp_all [isEndOf, evTag, stepId]

theorem isEndOf_isEndAny {s : ThoughtStep} {e : TraceEvent} (h : isEndOf s e = true) :
    isEndAny e = true := by
  cases s <;> cases e <;> simp_all [isEndOf, isEndAny]

theorem evTag_not_planEnd {e : TraceEvent} {i : String} (h : evTag e = some i) :
    isPlanEndEv e = false := by
  cases e <;> simp_all [evTag, isPlanEndEv]

theorem isStartEvFor_of_endAny {e : TraceEvent} (h : isEndAny e = true) (id : String) :
    isStartEvFor id e = false := by
  cases e <;> simp_all [isEndAny, isStartEvFor]

theorem isErrorEvFor_of_endAny {e : TraceEvent} (h : isEndAny e = true) (id : String) :
    isErrorEvFor id e = false := by
  cases e <;> simp_all [isEndAny, isErrorEvFor]

/-! ### Attempt lemmas: one `runOnce` call either appends nothing (failure)
or appends exactly its completion event and performs its bindings writes. -/

theorem runOnceThink_err {bridge : Option (Bridge σ)} {otu : Option (TokenUsage → σ → σ)}
    {t : ThinkStep} {st st' : RunState σ} {m : String}
    (h : runOnceThink bridge otu t st = (.error m, st')) :
    st'.events = st.events ∧ st'.glog = st.glog ∧ st'.vars = st.vars := by
  rcases bridge with _ | b
  · unfold runOnceThink at h
    simp only [] at h
    injection h with h1 h2
    subst h2
    exact ⟨rfl, rfl, rfl⟩
  · unfold runOnceThink at h
    simp only [] at h
    rcases hc : b.complete t.prompt t.system t.stop st.ext with ⟨r, d, x⟩
    rw [hc] at h
    rcases r with e | res
    · simp only [] at h
      injection h with h1 h2
      subst h2
      exact ⟨rfl, rfl, rfl⟩
    · simp only [] at h
      exact absurd h (by simp)

theorem runOnceThink_ok {bridge : Option (Bridge σ)} {otu : Option (TokenUsage → σ → σ)}
    {t : ThinkStep} {st st' : RunState σ}
    (h : runOnceThink bridge otu t st = (.ok (), st')) :
    ∃ eE out, st'.events = st.events ++ [eE] ∧ st'.glog = st.glog ++ [.gdone t.id] ∧
      isEndOf (.think t) eE = true ∧ endVal eE = some out ∧
      st'.vars = writeStep (.think t) out st.vars := by
  rcases bridge with _ | b
  · unfold runOnceThink at h
    simp only [] at h
    exact absurd h (by simp)
  · unfold runOnceThink at h
    simp only [] at h
    rcases hc : b.complete t.prompt t.system t.stop st.ext with ⟨r, d, x⟩
    rw [hc] at h
    rcases r with e | res
    · simp only [] at h
      exact absurd h (by simp)
    · simp only [] at h
      injection h with h1 h2
      subst h2
      rcases res with ⟨text, usage⟩
      rcases otu with _ | f
      · rcases usage with _ | u
        · exact ⟨.thinkEnd (st.now + d) t.id text none, .vstr text,
            by simp [addEvent, gpush], by simp [addEvent, gpush],
            by simp [isEndOf], rfl, by simp [addEvent, gpush, writeStep]⟩
        · exact ⟨.thinkEnd (st.now + d) t.id text (some u), .vstr text,
            by simp [addEvent, gpush], by simp [addEvent, gpush],
            by simp [isEndOf], rfl, by simp [addEvent, gpush, writeStep]⟩
      · rcases usage with _ | u
        · exact ⟨.thinkEnd (st.now + d) t.id text none, .vstr text,
            by simp [addEvent, gpush], by simp [addEvent, gpush],
            by simp [isEndOf], rfl, by simp [addEvent, gpush, writeStep]⟩
        · exact ⟨.thinkEnd (st.now + d) t.id text (some u), .vstr text,
            by simp [addEvent, gpush], by simp [addEvent, gpush],
            by simp [isEndOf], rfl, by simp [addEvent, gpush, writeStep]⟩

theorem runOnceTool_err {C : RunCtx σ} {reg : ToolRegistration σ} {t : ToolStep}
    {started : Nat} {st st' : RunState σ} {m : String}
    (h : runOnceTool C reg t started st = (.error m, st')) :
    st'.events = st.events ∧ st'.glog = st.glog ∧ st'.vars = st.vars := by
  unfold runOnceTool at h
  rcases hc : reg.handler t.input
      { env := C.env, vars := st.vars, signalAbortAfterMs := C.maxStepMs } st.ext with ⟨r, d, x⟩
  rw [hc] at h
  rcases r with e | out
  · simp only [] at h
    injection h with h1 h2
    subst h2
    exact ⟨rfl, rfl, rfl⟩
  · simp only [] at h
    exact absurd h (by simp)

theorem runOnceTool_ok {C : RunCtx σ} {reg : ToolRegistration σ} {t : ToolStep}
    {started : Nat} {st st' : RunState σ}
    (h : runOnceTool C reg t started st = (.ok (), st')) :
    ∃ eE out, st'.events = st.events ++ [eE] ∧ st'.glog = st.glog ++ [.gdone t.id] ∧
      isEndOf (.tool t) eE = true ∧ endVal eE = some out ∧
      st'.vars = writeStep (.tool t) out st.vars := by
  unfold runOnceTool at h
  rcases hc : reg.handler t.input
      { env := C.env, vars := st.vars, signalAbortAfterMs := C.maxStepMs } st.ext with ⟨r, d, x⟩
  rw [hc] at h
  rcases r with e | out
  · simp only [] at h
    exact absurd h (by simp)
  · simp only [] at h
    injection h with h1 h2
    subst h2
    rcases ha : t.assign with _ | a <;>
      exact ⟨.toolEnd (st.now + d) t.id reg.name out (st.now + d - started), out,
        by simp [ha, addEvent, gpush], by simp [ha, addEvent, gpush],
        by simp [isEndOf], rfl, by simp [ha, addEvent, gpush, writeStep]⟩

theorem isStartEvFor_tag {e : TraceEvent} {id : String} (h : isStartEvFor id e = true) :
    evTag e = some id := by
  cases e <;> simp_all [isStartEvFor, evTag]

theorem isEndEvFor_tag {e : TraceEvent} {id : String} (h : isEndEvFor id e = true) :
    evTag e = some id := by
  cases e <;> simp_all [isEndEvFor, evTag]

theorem isErrorEvFor_tag {e : TraceEvent} {id : String} (h : isErrorEvFor id e = true) :
    evTag e = some id := by
  cases e <;> simp_all [isErrorEvFor, evTag]

theorem isErrorEv_of_endAny {e : TraceEvent} (h : isEndAny e = true) :
    isErrorEv e = false := by
  cases e <;> simp_all [isEndAny, isErrorEv]

theorem isEndOf_isEndEvFor {s : ThoughtStep} {e : TraceEvent} (h : isEndOf s e = true)
    (id : String) : isEndEvFor id e = (stepId s == id) := by
  cases s <;> cases e <;> simp_all [isEndOf, isEndEvFor, stepId]

/-! ### The retry loop shape lemma -/

/-- Characterization of `retryAux` for an attempt function of one step `s`:
failed attempts contribute one `error` event (and ghost `gfail`) each; a
final success contributes the completion event (and ghost `gdone`) and
performs the step's bindings writes; final failure re-raises the last
error, leaving the bindings untouched. -/
theorem retryAux_cases (s : ThoughtStep) (fn : RunState σ → Except String Unit × RunState σ)
    (Hf : ∀ st m st', fn st = (.error m, st') →
      st'.events = st.events ∧ st'.glog = st.glog ∧ st'.vars = st.vars)
    (Ho : ∀ st st', fn st = (.ok (), st') →
      ∃ eE out, st'.events = st.events ++ [eE] ∧ st'.glog = st.glog ++ [.gdone (stepId s)] ∧
        isEndOf s eE = true ∧ endVal eE = some out ∧ st'.vars = writeStep s out st.vars) :
    ∀ (rem a : Nat) (st : RunState σ) (r : Except String Unit) (st' : RunState σ),
      retryAux fn (mkOnError (stepId s)) a rem st = (r, st') →
      ∃ errs : List TraceEvent,
        (∀ e ∈ errs, ∃ ts m, e = TraceEvent.error ts (some (stepId s)) m none) ∧
        (∀ u, r = .ok u → ∃ eE out,
          st'.events = st.events ++ errs ++ [eE] ∧
          st'.glog = st.glog ++ List.replicate errs.length (.gfail (stepId s)) ++
            [.gdone (stepId s)] ∧
          isEndOf s eE = true ∧ endVal eE = some out ∧
          st'.vars = writeStep s out st.vars) ∧
        (∀ m, r = .error m →
          st'.events = st.events ++ errs ∧
          st'.glog = st.glog ++ List.replicate errs.length (.gfail (stepId s)) ∧
          st'.vars = st.vars ∧ errs ≠ [] ∧
          (∃ ts, TraceEvent.error ts (some (stepId s)) m none ∈ errs)) := by
  intro rem
  induction rem with
  | zero =>
    intro a st r st' h
    rw [retryAux] at h
    rcases hfn : fn st with ⟨r₀, st₀⟩
    rw [hfn] at h
    rcases r₀ with e₀ | u₀
    · simp only [] at h
      obtain ⟨he, hg, hv⟩ := Hf st e₀ st₀ hfn
      injection h with h1 h2
      subst h2
      refine ⟨[.error st₀.now (some (stepId s)) e₀ none], ?_, ?_, ?_⟩
      · intro e hm
        simp at hm
        exact ⟨_, _, hm⟩
      · intro u hu
        rw [← h1] at hu
        simp at hu
      · intro m hm
        rw [← h1] at hm
        injection hm with hm
        subst hm
        refine ⟨?_, ?_, ?_, by simp, ⟨st₀.now, by simp [mkOnError, addEvent, gpush]⟩⟩
        · simp [mkOnError, addEvent, gpush, he]
        · simp [mkOnError, addEvent, gpush, hg]
        · simp [mkOnError, addEvent, gpush, hv]
    · simp only [] at h
      injection h with h1 h2
      subst h2
      cases u₀
      obtain ⟨eE, out, he, hg, hend, hval, hv⟩ := Ho st st₀ hfn
      refine ⟨[], by simp, ?_, ?_⟩
      · intro u hu
        exact ⟨eE, out, by simpa using he, by simpa using hg, hend, hval, hv⟩
      · intro m hm
        rw [← h1] at hm
        simp at hm
  | succ rem ih =>
    intro a st r st' h
    rw [retryAux] at h
    rcases hfn : fn st with ⟨r₀, st₀⟩
    rw [hfn] at h
    rcases r₀ with e₀ | u₀
    · simp only [] at h
      obtain ⟨he, hg, hv⟩ := Hf st e₀ st₀ hfn
      obtain ⟨errs, hshape, hok, herr⟩ := ih (a + 1) _ r st' h
      refine ⟨.error st₀.now (some (stepId s)) e₀ none :: errs, ?_, ?_, ?_⟩
      · intro e hm
        rcases List.mem_cons.mp hm with hm | hm
        · exact ⟨_, _, hm⟩
        · exact hshape e hm
      · intro u hu
        obtain ⟨eE, out, h1, h2, h3, h4, h5⟩ := hok u hu
        refine ⟨eE, out, ?_, ?_, h3, h4, ?_⟩
        · rw [h1]
          simp [mkOnError, addEvent, gpush, he]
        · rw [h2]
          simp [mkOnError, addEvent, gpush, hg, List.replicate_succ]
        · rw [h5]
          simp [mkOnError, addEvent, gpush, hv]
      · intro m hm
        obtain ⟨h1, h2, h3, h4, ts, h5⟩ := herr m hm
        refine ⟨?_, ?_, ?_, by simp, ⟨ts, List.mem_cons.mpr (Or.inr h5)⟩⟩
        · rw [h1]
          simp [mkOnError, addEvent, gpush, he]
        · rw [h2]
          simp [mkOnError, addEvent, gpush, hg, List.replicate_succ]
        · rw [h3]
          simp [mkOnError, addEvent, gpush, hv]
    · simp only [] at h
      injection h with h1 h2
      subst h2
      cases u₀
      obtain ⟨eE, out, he, hg, hend, hval, hv⟩ := Ho st st₀ hfn
      refine ⟨[], by simp, ?_, ?_⟩
      · intro u hu
        exact ⟨eE, out, by simpa using he, by simpa using hg, hend, hval, hv⟩
      · intro m hm
        rw [← h1] at hm
        simp at hm

/-- Assemble a `StepShape` from the start-event emission plus the retry
loop's behaviour. -/
theorem stepBlock (s : ThoughtStep) (fn : RunState σ → Except String Unit × RunState σ)
    (Hf : ∀ st m st', fn st = (.error m, st') →
      st'.events = st.events ∧ st'.glog = st.glog ∧ st'.vars = st.vars)
    (Ho : ∀ st st', fn st = (.ok (), st') →
      ∃ eE out, st'.events = st.events ++ [eE] ∧ st'.glog = st.glog ++ [.gdone (stepId s)] ∧
        isEndOf s eE = true ∧ endVal eE = some out ∧ st'.vars = writeStep s out st.vars)
    (sEv : TraceEvent) (rem : Nat) (st st₁ st' : RunState σ) (r : Except String Unit)
    (hsE : st₁.events = st.events ++ [sEv])
    (hsG : st₁.glog = st.glog ++ [.gstart (stepId s)])
    (hsV : st₁.vars = st.vars)
    (hTag : evTag sEv = some (stepId s))
    (hStart : ∀ id, isStartEvFor id sEv = (stepId s == id))
    (hNoEnd : isEndAny sEv = false)
    (hNoErr : isErrorEv sEv = false)
    (hNoErrF : ∀ id, isErrorEvFor id sEv = false)
    (hNoEndF : ∀ id, isEndEvFor id sEv = false)
    (h : retryAux fn (mkOnError (stepId s)) 0 rem st₁ = (r, st')) :
    StepShape s st st' r := by
  obtain ⟨errs, hshape, hok, herr⟩ := retryAux_cases s fn Hf Ho rem 0 st₁ r st' h
  have errsTag : ∀ e ∈ errs, evTag e = some (stepId s) := by
    intro e he
    obtain ⟨ts, m, rfl⟩ := hshape e he
    rfl
  have errsNoStart : ∀ id, errs.countP (isStartEvFor id) = 0 := by
    intro id
    refine List.countP_eq_zero.mpr fun e he => ?_
    obtain ⟨ts, m, rfl⟩ := hshape e he
    simp [isStartEvFor]
  have errsNoEnd : ∀ id, errs.countP (isEndEvFor id) = 0 := by
    intro id
    refine List.countP_eq_zero.mpr fun e he => ?_
    obtain ⟨ts, m, rfl⟩ := hshape e he
    simp [isEndEvFor]
  have errsNoEndAny : ∀ e ∈ errs, isEndAny e = false := by
    intro e he
    obtain ⟨ts, m, rfl⟩ := hshape e he
    rfl
  have errsErrF : ∀ id, errs.countP (isErrorEvFor id) =
      if (stepId s == id) then errs.length else 0 := by
    intro id
    refine countP_forall_eq _ _ _ fun e he => ?_
    obtain ⟨ts, m, rfl⟩ := hshape e he
    rfl
  have errsErr : errs.countP isErrorEv = errs.length := by
    refine List.countP_eq_length.mpr fun e he => ?_
    obtain ⟨ts, m, rfl⟩ := hshape e he
    rfl
  have repStart : ∀ id,
      (List.replicate errs.length (GEntry.gfail (stepId s))).countP (isGstartFor id) = 0 := by
    intro id
    rw [countP_replicate]
    simp [isGstartFor]
  have repDone : ∀ id,
      (List.replicate errs.length (GEntry.gfail (stepId s))).countP (isGdoneFor id) = 0 := by
    intro id
    rw [countP_replicate]
    simp [isGdoneFor]
  have repFail : ∀ id,
      (List.replicate errs.length (GEntry.gfail (stepId s))).countP (isGfailFor id) =
        if (stepId s == id) then errs.length else 0 := by
    intro id
    rw [countP_replicate]
    rfl
  have repFailTot :
      (List.replicate errs.length (GEntry.gfail (stepId s))).countP isGfail = errs.length := by
    rw [countP_replicate]
    rfl
  rcases r with m | u
  · obtain ⟨hE, hG, hV, hNE, ts, hMem⟩ := herr m rfl
    refine ⟨sEv :: errs, .gstart (stepId s) :: List.replicate errs.length (.gfail (stepId s)),
      ?_, ?_, ?_, ?_, ?_, ?_, ?_, ?_, ?_, ?_, ?_, ?_⟩
    · rw [hE, hsE]
      simp
    · rw [hG, hsG]
      simp
    · intro e he
      rcases List.mem_cons.mp he with rfl | he
      · exact hTag
      · exact errsTag e he
    · intro id
      rw [List.countP_cons, List.countP_cons, errsNoStart id, repStart id, hStart id]
      simp [isGstartFor]
    · intro id
      rw [List.countP_cons, List.countP_cons, errsNoEnd id, repDone id, hNoEndF id]
      simp [isGdoneFor]
    · intro id
      rw [List.countP_cons, List.countP_cons, errsErrF id, repFail id, hNoErrF id]
      simp [isGfailFor]
    · rw [List.countP_cons, List.countP_cons, errsErr, repFailTot, hNoErr]
      simp [isGfail]
    · rw [List.countP_cons, repStart (stepId s)]
      simp [isGstartFor]
    · rw [List.countP_cons, repDone (stepId s)]
      simp [isGdoneFor, exOk]
    · intro m' hm'
      injection hm' with hm'
      subst hm'
      exact ⟨ts, List.mem_cons.mpr (Or.inr hMem)⟩
    · intro u hu
      simp at hu
    · intro m' hm'
      rw [hV, hsV]
  · obtain ⟨eE, out, hE, hG, hend, hval, hvars⟩ := hok u rfl
    have eTag : evTag eE = some (stepId s) := isEndOf_tag hend
    have eAny : isEndAny eE = true := isEndOf_isEndAny hend
    refine ⟨sEv :: (errs ++ [eE]),
      .gstart (stepId s) :: (List.replicate errs.length (.gfail (stepId s)) ++
        [.gdone (stepId s)]), ?_, ?_, ?_, ?_, ?_, ?_, ?_, ?_, ?_, ?_, ?_, ?_⟩
    · rw [hE, hsE]
      simp
    · rw [hG, hsG]
      simp
    · intro e he
      rcases List.mem_cons.mp he with rfl | he
      · exact hTag
      · rcases List.mem_append.mp he with he | he
        · exact errsTag e he
        · simp at he
          subst he
          exact eTag
    · intro id
      rw [List.countP_cons, List.countP_cons, List.countP_append, List.countP_append,
        errsNoStart id, repStart id, hStart id]
      have h1 : List.countP (isStartEvFor id) [eE] = 0 := by
        simp [List.countP_cons, isStartEvFor_of_endAny eAny]
      have h2 : List.countP (isGstartFor id) [GEntry.gdone (stepId s)] = 0 := by
        simp [List.countP_cons, isGstartFor]
      rw [h1, h2]
      simp [isGstartFor]
    · intro id
      rw [List.countP_cons, List.countP_cons, List.countP_append, List.countP_append,
        errsNoEnd id, repDone id, hNoEndF id]
      have h1 : List.countP (isEndEvFor id) [eE] = if (stepId s == id) then 1 else 0 := by
        rw [List.countP_singleton, isEndOf_isEndEvFor hend id]
      have h2 : List.countP (isGdoneFor id) [GEntry.gdone (stepId s)] =
          if (stepId s == id) then 1 else 0 := by
        rw [List.countP_singleton]
        rfl
      rw [h1, h2]
      simp [isGdoneFor]
    · intro id
      rw [List.countP_cons, List.countP_cons, List.countP_append, List.countP_append,
        errsErrF id, repFail id, hNoErrF id]
      have h1 : List.countP (isErrorEvFor id) [eE] = 0 := by
        simp [List.countP_singleton, isErrorEvFor_of_endAny eAny]
      have h2 : List.countP (isGfailFor id) [GEntry.gdone (stepId s)] = 0 := by
        rw [List.countP_singleton]
        simp [isGfailFor]
      rw [h1, h2]
      simp [isGfailFor]
    · rw [List.countP_cons, List.countP_cons, List.countP_append, List.countP_append,
        errsErr, repFailTot, hNoErr]
      have h1 : List.countP isErrorEv [eE] = 0 := by
        simp [List.countP_singleton, isErrorEv_of_endAny eAny]
      have h2 : List.countP isGfail [GEntry.gdone (stepId s)] = 0 := by
        rw [List.countP_singleton]
        rfl
      rw [h1, h2]
      simp [isGfail]
    · rw [List.countP_cons, List.countP_append, repStart (stepId s)]
      have h2 : List.countP (isGstartFor (stepId s)) [GEntry.gdone (stepId s)] = 0 := by
        rw [List.countP_singleton]
        simp [isGstartFor]
      rw [h2]
      simp [isGstartFor]
    · rw [List.countP_cons, List.countP_append, repDone (stepId s)]
      have h2 : List.countP (isGdoneFor (stepId s)) [GEntry.gdone (stepId s)] = 1 := by
        rw [List.countP_singleton]
        simp [isGdoneFor]
      rw [h2]
      simp [isGdoneFor, exOk]
    · intro m' hm'
      simp at hm'
    · intro u' hu'
      refine ⟨sEv :: errs, eE, out, by simp, ?_, hend, hval, by rw [hvars, hsV]⟩
      intro e he
      rcases List.mem_cons.mp he with rfl | he
      · exact hNoEnd
      · exact errsNoEndAny e he
    · intro m' hm'
      simp at hm'

/-- One `runStep` call satisfies `StepShape`. -/
theorem runStep_shape (C : RunCtx σ) (s : ThoughtStep) (st : RunState σ)
    {r : Except String Unit} {st' : RunState σ} (h : runStep C s st = (r, st')) :
    StepShape s st st' r := by
  rcases s with t | t
  · unfold runStep retryWithBackoff at h
    simp only [] at h
    exact stepBlock (.think t) _ (fun st m st' hh => runOnceThink_err hh)
      (fun st st' hh => runOnceThink_ok hh)
      (.thinkStart st.now t.id t.prompt) C.retries.toNat st _ st' r
      (by simp [addEvent, gpush]) (by simp [addEvent, gpush, stepId])
      (by simp [addEvent, gpush])
      rfl (fun id => rfl) rfl rfl (fun id => rfl) (fun id => rfl) h
  · unfold runStep at h
    simp only [] at h
    rcases hreg : registryFind C.registry t.toolName with _ | reg
    · rw [hreg] at h
      simp only [] at h
      injection h with h1 h2
      subst h2
      refine ⟨[.error st.now (some t.id) ("Tool not registered: " ++ t.toolName) none],
        [.gfail t.id], by simp [addEvent, gpush], by simp [addEvent, gpush], ?_, ?_, ?_, ?_,
        ?_, ?_, ?_, ?_, ?_, ?_⟩
      · intro e he
        simp at he
        subst he
        rfl
      · intro id
        simp [List.countP_singleton, isStartEvFor, isGstartFor]
      · intro id
        simp [List.countP_singleton, isEndEvFor, isGdoneFor]
      · intro id
        simp only [List.countP_singleton]
        rfl
      · simp only [List.countP_singleton]
        rfl
      · simp [List.countP_singleton, isGstartFor]
      · rw [← h1]
        simp [List.countP_singleton, isGdoneFor, exOk]
      · intro m hm
        rw [← h1] at hm
        injection hm with hm
        subst hm
        exact ⟨st.now, by simp [stepId]⟩
      · intro u hu
        rw [← h1] at hu
        simp at hu
      · intro m hm
        simp [addEvent, gpush]
    · rw [hreg] at h
      simp only [] at h
      unfold retryWithBackoff at h
      exact stepBlock (.tool t) _ (fun st m st' hh => runOnceTool_err hh)
        (fun st st' hh => runOnceTool_ok hh)
        (.toolStart st.now t.id reg.name t.input) C.retries.toNat st _ st' r
        (by simp [addEvent, gpush]) (by simp [addEvent, gpush, stepId])
        (by simp [addEvent, gpush])
        rfl (fun id => rfl) rfl rfl (fun id => rfl) (fun id => rfl) h

/-! ### Step-loop lemmas -/

theorem isEndOf_of_not_endAny {s : ThoughtStep} {e : TraceEvent} (h : isEndAny e = false) :
    isEndOf s e = false := by
  cases hh : isEndOf s e
  · rfl
  · rw [isEndOf_isEndAny hh] at h
    exact absurd h (by simp)

theorem runSteps_append (xs ys : List ThoughtStep) (C : RunCtx σ) (st : RunState σ) :
    runSteps C (xs ++ ys) st =
      match runSteps C xs st with
      | (.ok _, st₁) => runSteps C ys st₁
      | (.error e, st₁) => (.error e, st₁) := by
  induction xs generalizing st with
  | nil => rfl
  | cons s xs ih =>
    show runSteps C (s :: (xs ++ ys)) st = _
    rw [runSteps]
    rcases hs : runStep C s st with ⟨r₀, st₁⟩
    rcases r₀ with e | u
    · rw [runSteps, hs]
    · rw [runSteps, hs]
      exact ih st₁

theorem runSteps_events_mono : ∀ (steps : List ThoughtStep) (C : RunCtx σ)
    (st : RunState σ) (r : Except String Unit) (st' : RunState σ),
    runSteps C steps st = (r, st') → ∃ Δ, st'.events = st.events ++ Δ := by
  intro steps
  induction steps with
  | nil =>
    intro C st r st' h
    rw [runSteps] at h
    injection h with h1 h2
    subst h2
    exact ⟨[], by simp⟩
  | cons s rest ih =>
    intro C st r st' h
    rw [runSteps] at h
    rcases hs : runStep C s st with ⟨r₀, st₁⟩
    rw [hs] at h
    obtain ⟨Δ, γ, hE, _⟩ := runStep_shape C s st hs
    rcases r₀ with e | u
    · simp only [] at h
      injection h with h1 h2
      subst h2
      exact ⟨Δ, hE⟩
    · simp only [] at h
      obtain ⟨Δr, hr⟩ := ih C st₁ r st' h
      exact ⟨Δ ++ Δr, by rw [hr, hE, List.append_assoc]⟩

/-- No plan-level event is appended by the step loop. -/
theorem runSteps_no_planEnd : ∀ (steps : List ThoughtStep) (C : RunCtx σ)
    (st : RunState σ) (r : Except String Unit) (st' : RunState σ),
    runSteps C steps st = (r, st') →
    st'.events.countP isPlanEndEv = st.events.countP isPlanEndEv := by
  intro steps
  induction steps with
  | nil =>
    intro C st r st' h
    rw [runSteps] at h
    injection h with h1 h2
    subst h2
    rfl
  | cons s rest ih =>
    intro C st r st' h
    rw [runSteps] at h
    rcases hs : runStep C s st with ⟨r₀, st₁⟩
    rw [hs] at h
    obtain ⟨Δ, γ, hE, hG, hTags, _⟩ := runStep_shape C s st hs
    have hzero : Δ.countP isPlanEndEv = 0 :=
      List.countP_eq_zero.mpr fun e he => by simp [evTag_not_planEnd (hTags e he)]
    have hstep : st₁.events.countP isPlanEndEv = st.events.countP isPlanEndEv := by
      rw [hE, List.countP_append, hzero]
      omega
    rcases r₀ with e | u
    · simp only [] at h
      injection h with h1 h2
      subst h2
      exact hstep
    · simp only [] at h
      rw [ih C st₁ r st' h, hstep]

/-- Error events and ghost failure entries stay in lockstep across the loop. -/
theorem runSteps_err_lockstep : ∀ (steps : List ThoughtStep) (C : RunCtx σ)
    (st : RunState σ) (r : Except String Unit) (st' : RunState σ),
    runSteps C steps st = (r, st') →
    st'.events.countP isErrorEv + st.glog.countP isGfail =
      st.events.countP isErrorEv + st'.glog.countP isGfail := by
  intro steps
  induction steps with
  | nil =>
    intro C st r st' h
    rw [runSteps] at h
    injection h with h1 h2
    subst h2
    rfl
  | cons s rest ih =>
    intro C st r st' h
    rw [runSteps] at h
    rcases hs : runStep C s st with ⟨r₀, st₁⟩
    rw [hs] at h
    obtain ⟨Δ, γ, hE, hG, hTags, hc1, hc2, hc3, hc4, _⟩ := runStep_shape C s st hs
    have hstep : st₁.events.countP isErrorEv + st.glog.countP isGfail =
        st.events.countP isErrorEv + st₁.glog.countP isGfail := by
      rw [hE, hG, List.countP_append, List.countP_append, hc4]
      omega
    rcases r₀ with e | u
    · simp only [] at h
      injection h with h1 h2
      subst h2
      exact hstep
    · simp only [] at h
      have := ih C st₁ r st' h
      omega

/-- Per-id lockstep between start/end/error events and the ghost log. -/
theorem runSteps_id_lockstep : ∀ (steps : List ThoughtStep) (C : RunCtx σ)
    (st : RunState σ) (r : Except String Unit) (st' : RunState σ),
    runSteps C steps st = (r, st') → ∀ id,
    st'.events.countP (isStartEvFor id) + st.glog.countP (isGstartFor id) =
      st.events.countP (isStartEvFor id) + st'.glog.countP (isGstartFor id) ∧
    st'.events.countP (isEndEvFor id) + st.glog.countP (isGdoneFor id) =
      st.events.countP (isEndEvFor id) + st'.glog.countP (isGdoneFor id) ∧
    st'.events.countP (isErrorEvFor id) + st.glog.countP (isGfailFor id) =
      st.events.countP (isErrorEvFor id) + st'.glog.countP (isGfailFor id) := by
  intro steps
  induction steps with
  | nil =>
    intro C st r st' h id
    rw [runSteps] at h
    injection h with h1 h2
    subst h2
    exact ⟨rfl, rfl, rfl⟩
  | cons s rest ih =>
    intro C st r st' h id
    rw [runSteps] at h
    rcases hs : runStep C s st with ⟨r₀, st₁⟩
    rw [hs] at h
    obtain ⟨Δ, γ, hE, hG, hTags, hc1, hc2, hc3, hc4, _⟩ := runStep_shape C s st hs
    have hstep : st₁.events.countP (isStartEvFor id) + st.glog.countP (isGstartFor id) =
        st.events.countP (isStartEvFor id) + st₁.glog.countP (isGstartFor id) ∧
        st₁.events.countP (isEndEvFor id) + st.glog.countP (isGdoneFor id) =
        st.events.countP (isEndEvFor id) + st₁.glog.countP (isGdoneFor id) ∧
        st₁.events.countP (isErrorEvFor id) + st.glog.countP (isGfailFor id) =
        st.events.countP (isErrorEvFor id) + st₁.glog.countP (isGfailFor id) := by
      rw [hE, hG]
      rw [List.countP_append, List.countP_append, List.countP_append, List.countP_append,
        List.countP_append, List.countP_append, hc1 id, hc2 id, hc3 id]
      omega
    rcases r₀ with e | u
    · simp only [] at h
      injection h with h1 h2
      subst h2
      exact hstep
    · simp only [] at h
      have hrest := ih C st₁ r st' h id
      exact ⟨by omega, by omega, by omega⟩

/-- Binding keys never written by any step of the loop keep their value. -/
theorem runSteps_vars_pres : ∀ (steps : List ThoughtStep) (C : RunCtx σ)
    (st : RunState σ) (r : Except String Unit) (st' : RunState σ) (k : String),
    runSteps C steps st = (r, st') → (∀ s ∈ steps, k ∉ writesKeys s) →
    varsGet st'.vars k = varsGet st.vars k := by
  intro steps
  induction steps with
  | nil =>
    intro C st r st' k h hk
    rw [runSteps] at h
    injection h with h1 h2
    subst h2
    rfl
  | cons s rest ih =>
    intro C st r st' k h hk
    rw [runSteps] at h
    rcases hs : runStep C s st with ⟨r₀, st₁⟩
    rw [hs] at h
    obtain ⟨Δ, γ, hE, hG, hTags, hc1, hc2, hc3, hc4, hc5, hc6, hc7, hOk, hErrV⟩ :=
      runStep_shape C s st hs
    have hkhead : k ∉ writesKeys s := hk s (by simp)
    have hstep : varsGet st₁.vars k = varsGet st.vars k := by
      rcases r₀ with e | u
      · rw [hErrV e rfl]
      · obtain ⟨Δ₁, eE, out, hΔ, hN, hend, hval, hvars⟩ := hOk u rfl
        rw [hvars]
        rcases s with t | t
        · simp only [writesKeys, List.mem_singleton] at hkhead
          simp only [writeStep]
          exact varsGet_set_ne _ _ _ _ hkhead
        · rcases ha : t.assign with _ | a
          · simp only [writesKeys, ha, List.mem_singleton] at hkhead
            simp only [writeStep, ha]
            exact varsGet_set_ne _ _ _ _ hkhead
          · simp only [writesKeys, ha] at hkhead
            have h1 : k ≠ t.id := fun hh => hkhead (by simp [hh])
            have h2 : k ≠ a := fun hh => hkhead (by simp [hh])
            simp only [writeStep, ha]
            rw [varsGet_set_ne _ _ _ _ h2, varsGet_set_ne _ _ _ _ h1]
    rcases r₀ with e | u
    · simp only [] at h
      injection h with h1 h2
      subst h2
      exact hstep
    · simp only [] at h
      rw [ih C st₁ r st' k h fun s' hs' => hk s' (by simp [hs']), hstep]

/-- Every failure of the loop is recorded as an `error` event carrying the
thrown message before the loop re-raises it. -/
theorem runSteps_err_prop : ∀ (steps : List ThoughtStep) (C : RunCtx σ)
    (st : RunState σ) (m : String) (st' : RunState σ),
    runSteps C steps st = (.error m, st') →
    ∃ ts sid, TraceEvent.error ts sid m none ∈ st'.events := by
  intro steps
  induction steps with
  | nil =>
    intro C st m st' h
    rw [runSteps] at h
    simp at h
  | cons s rest ih =>
    intro C st m st' h
    rw [runSteps] at h
    rcases hs : runStep C s st with ⟨r₀, st₁⟩
    rw [hs] at h
    obtain ⟨Δ, γ, hE, hG, hTags, hc1, hc2, hc3, hc4, hc5, hc6, hErrMem, hOk, hErrV⟩ :=
      runStep_shape C s st hs
    rcases r₀ with e | u
    · simp only [] at h
      injection h with h1 h2
      subst h2
      injection h1 with h1
      subst h1
      obtain ⟨ts, hmem⟩ := hErrMem _ rfl
      exact ⟨ts, some (stepId s), by rw [hE]; exact List.mem_append.mpr (Or.inr hmem)⟩
    · simp only [] at h
      exact ih C st₁ m st' h

/-- Steps whose id differs from `id` leave the ghost start/done counts for
`id` untouched. -/
theorem runSteps_glog_pres : ∀ (steps : List ThoughtStep) (C : RunCtx σ)
    (st : RunState σ) (r : Except String Unit) (st' : RunState σ),
    runSteps C steps st = (r, st') → ∀ id, (∀ s' ∈ steps, stepId s' ≠ id) →
    st'.glog.countP (isGstartFor id) = st.glog.countP (isGstartFor id) ∧
    st'.glog.countP (isGdoneFor id) = st.glog.countP (isGdoneFor id) := by
  intro steps
  induction steps with
  | nil =>
    intro C st r st' h id hid
    rw [runSteps] at h
    injection h with h1 h2
    subst h2
    exact ⟨rfl, rfl⟩
  | cons s rest ih =>
    intro C st r st' h id hid
    rw [runSteps] at h
    rcases hs : runStep C s st with ⟨r₀, st₁⟩
    rw [hs] at h
    obtain ⟨Δ, γ, hE, hG, hTags, hc1, hc2, hc3, _⟩ := runStep_shape C s st hs
    have hne : stepId s ≠ id := hid s (by simp)
    have hz1 : Δ.countP (isStartEvFor id) = 0 :=
      List.countP_eq_zero.mpr fun e he hp => by
        have := isStartEvFor_tag hp
        rw [hTags e he] at this
        exact hne (by injection this)
    have hz2 : Δ.countP (isEndEvFor id) = 0 :=
      List.countP_eq_zero.mpr fun e he hp => by
        have := isEndEvFor_tag hp
        rw [hTags e he] at this
        exact hne (by injection this)
    have hstep : st₁.glog.countP (isGstartFor id) = st.glog.countP (isGstartFor id) ∧
        st₁.glog.countP (isGdoneFor id) = st.glog.countP (isGdoneFor id) := by
      rw [hG, List.countP_append, List.countP_append, ← hc1 id, ← hc2 id, hz1, hz2]
      omega
    rcases r₀ with e | u
    · simp only [] at h
      injection h with h1 h2
      subst h2
      exact hstep
    · simp only [] at h
      have hrest := ih C st₁ r st' h id fun s' hs' => hid s' (by simp [hs'])
      exact ⟨hstep.1 ▸ hrest.1, hstep.2 ▸ hrest.2⟩

/-- With unique ids, each step of the loop starts at most once and
completes exactly when the whole loop (from it onwards) reports success
for it: its ghost done count is `1` on a fully successful loop, and never
exceeds `1`. -/
theorem runSteps_step_done : ∀ (steps : List ThoughtStep) (C : RunCtx σ)
    (st : RunState σ) (r : Except String Unit) (st' : RunState σ),
    runSteps C steps st = (r, st') →
    ∀ s ∈ steps, (steps.map stepId).Nodup →
    st.glog.countP (isGstartFor (stepId s)) = 0 →
    st.glog.countP (isGdoneFor (stepId s)) = 0 →
    st'.glog.countP (isGstartFor (stepId s)) ≤ 1 ∧
    st'.glog.countP (isGdoneFor (stepId s)) ≤ 1 ∧
    (∀ u, r = .ok u → st'.glog.countP (isGdoneFor (stepId s)) = 1) := by
  intro steps
  induction steps with
  | nil =>
    intro C st r st' h s hsmem
    simp at hsmem
  | cons s₀ rest ih =>
    intro C st r st' h s hsmem hnd hz1 hz2
    rw [runSteps] at h
    rcases hs : runStep C s₀ st with ⟨r₀, st₁⟩
    rw [hs] at h
    obtain ⟨Δ, γ, hE, hG, hTags, hc1, hc2, hc3, hc4, hc5, hc6, _⟩ := runStep_shape C s₀ st hs
    have hndHead : stepId s₀ ∉ rest.map stepId := (List.nodup_cons.mp hnd).1
    have hndTail : (rest.map stepId).Nodup := (List.nodup_cons.mp hnd).2
    rcases List.mem_cons.mp hsmem with rfl | hsmem
    · have hg1 : st₁.glog.countP (isGstartFor (stepId s)) ≤ 1 := by
        rw [hG, List.countP_append, hz1]
        omega
      have hg2 : st₁.glog.countP (isGdoneFor (stepId s)) =
          (if exOk r₀ then 1 else 0) := by
        rw [hG, List.countP_append, hz2, hc6]
        omega
      rcases r₀ with e | u
      · simp only [] at h
        injection h with h1 h2
        subst h2
        refine ⟨hg1, ?_, ?_⟩
        · rw [hg2]
          simp [exOk]
        · intro u hu
          rw [← h1] at hu
          simp at hu
      · simp only [] at h
        have hpres := runSteps_glog_pres rest C st₁ r st' h (stepId s)
          fun s' hs' hh => hndHead (hh ▸ List.mem_map_of_mem stepId hs')
        refine ⟨hpres.1 ▸ hg1, ?_, ?_⟩
        · rw [hpres.2, hg2]
          simp [exOk]
        · intro u hu
          rw [hpres.2, hg2]
          simp [exOk]
    · have hne : stepId s₀ ≠ stepId s := fun hh =>
        hndHead (hh ▸ List.mem_map_of_mem stepId hsmem)
      have hz1' : Δ.countP (isStartEvFor (stepId s)) = 0 :=
        List.countP_eq_zero.mpr fun e he hp => by
          have := isStartEvFor_tag hp
          rw [hTags e he] at this
          exact hne (by injection this)
      have hz2' : Δ.countP (isEndEvFor (stepId s)) = 0 :=
        List.countP_eq_zero.mpr fun e he hp => by
          have := isEndEvFor_tag hp
          rw [hTags e he] at this
          exact hne (by injection this)
      have hstep1 : st₁.glog.countP (isGstartFor (stepId s)) = 0 := by
        rw [hG, List.countP_append, hz1, ← hc1 (stepId s), hz1']
      have hstep2 : st₁.glog.countP (isGdoneFor (stepId s)) = 0 := by
        rw [hG, List.countP_append, hz2, ← hc2 (stepId s), hz2']
      rcases r₀ with e | u
      · simp only [] at h
        injection h with h1 h2
        subst h2
        refine ⟨by omega, by omega, ?_⟩
        intro u hu
        rw [← h1] at hu
        simp at hu
      · simp only [] at h
        exact ih C st₁ r st' h s hsmem hndTail hstep1 hstep2

/-- The heart of replay determinism: a successful loop leaves, for each of
its (uniquely identified) steps, exactly its own completion event as the
first match in the final trace, so replaying reproduces the bindings
writes in order. -/
theorem runSteps_replay : ∀ (steps : List ThoughtStep) (C : RunCtx σ)
    (st st' : RunState σ) (post : List TraceEvent),
    (steps.map stepId).Nodup →
    (∀ s ∈ steps, ∀ e ∈ st.events, isEndOf s e = false) →
    runSteps C steps st = (.ok (), st') →
    replaySteps (st'.events ++ post) steps st.vars = .ok st'.vars := by
  intro steps
  induction steps with
  | nil =>
    intro C st st' post hnd hno h
    rw [runSteps] at h
    injection h with h1 h2
    subst h2
    rfl
  | cons s rest ih =>
    intro C st st' post hnd hno h
    rw [runSteps] at h
    rcases hs : runStep C s st with ⟨r₀, st₁⟩
    rw [hs] at h
    rcases r₀ with e | u
    · simp only [] at h
      exact absurd h (by simp)
    · simp only [] at h
      cases u
      obtain ⟨Δ, γ, hE, hG, hTags, hc1, hc2, hc3, hc4, hc5, hc6, hc7, hOk, hErrV⟩ :=
        runStep_shape C s st hs
      obtain ⟨Δ₁, eE, out, hΔ, hN₁, hend, hval, hvars⟩ := hOk () rfl
      obtain ⟨Δr, hEr⟩ := runSteps_events_mono rest C st₁ _ st' h
      have hndHead : stepId s ∉ rest.map stepId := (List.nodup_cons.mp hnd).1
      have hndTail : (rest.map stepId).Nodup := (List.nodup_cons.mp hnd).2
      have heEmem : eE ∈ Δ := by
        rw [hΔ]
        simp
      have hfind : (st'.events ++ post).find? (isEndOf s) = some eE := by
        rw [hEr, hE, hΔ]
        simp only [List.append_assoc, List.singleton_append]
        rw [find?_append_none _ _ _ fun e he => hno s (by simp) e he,
          find?_append_none _ _ _ fun e he => isEndOf_of_not_endAny (hN₁ e he)]
        exact List.find?_cons_of_pos _ hend
      rw [replaySteps, hfind]
      simp only []
      rw [hval]
      simp only []
      rw [← hvars]
      refine ih C st₁ st' post hndTail ?_ h
      intro s' hs' e he
      rw [hE, hΔ] at he
      rcases List.mem_append.mp he with he | he
      · exact hno s' (by simp [hs']) e he
      · rcases List.mem_append.mp he with he | he
        · exact isEndOf_of_not_endAny (hN₁ e he)
        · simp at he
          subst he
          cases hh : isEndOf s' e
          · rfl
          · exfalso
            have h1 := isEndOf_tag hh
            have h2 := hTags e heEmem
            rw [h1] at h2
            injection h2 with h2
            exact hndHead (h2 ▸ List.mem_map_of_mem stepId hs')

/-! ### `runPlan` glue -/

theorem runPlan_eq (plan : ThoughtPlan) (registry : List (ToolRegistration σ))
    (opts : RuntimeOptions σ) (procEnv : List (String × String)) (now₀ : Nat) (ext₀ : σ) :
    runPlan plan registry opts procEnv now₀ ext₀ =
      match runSteps (planCtx registry opts procEnv) plan.steps (planInit plan now₀ ext₀) with
      | (.ok _, st₂) =>
        (.ok ((addEvent (.planEnd st₂.now plan.id true) st₂).vars,
          (addEvent (.planEnd st₂.now plan.id true) st₂).events),
          addEvent (.planEnd st₂.now plan.id true) st₂)
      | (.error e, st₂) => (.error e, st₂) := by
  unfold runPlan planCtx planInit addEvent
  rfl

theorem isEndOf_planStart (s : ThoughtStep) (ts : Nat) (pid : String) :
    isEndOf s (.planStart ts pid) = false := by
  cases s <;> rfl

theorem varsGet_writeStep_id (s : ThoughtStep) (out : Val) (m : Vars) :
    varsGet (writeStep s out m) (stepId s) = some out := by
  rcases s with t | t
  · exact varsGet_set_self m t.id out
  · rcases ha : t.assign with _ | a
    · simp only [writeStep, ha, stepId]
      exact varsGet_set_self m t.id out
    · simp only [writeStep, ha, stepId]
      by_cases hc : t.id = a
      · subst hc
        exact varsGet_set_self _ t.id out
      · rw [varsGet_set_ne _ _ _ _ hc]
        exact varsGet_set_self m t.id out

theorem varsGet_writeStep_alias (t : ToolStep) (a : String) (out : Val) (m : Vars)
    (ha : t.assign = some a) :
    varsGet (writeStep (.tool t) out m) a = some out := by
  simp only [writeStep, ha]
  exact varsGet_set_self _ a out

/-! ### Claim theorems -/

/-- C1: for every plan (with the data model's unique-step-id invariant)
that `runPlan` completes successfully, `replayPlan` applied to the plan
and the resulting trace returns exactly the live run's bindings —
including think-step bindings and tool-step alias bindings.  `replayPlan`
is a pure function of the plan and trace alone (it receives neither
registry nor bridge, so invokes no handler, cannot mutate the trace, and
two calls agree definitionally). -/
theorem c1_replay_determinism (σ : Type) (plan : ThoughtPlan)
    (registry : List (ToolRegistration σ)) (opts : RuntimeOptions σ)
    (procEnv : List (String × String)) (now₀ : Nat) (ext₀ : σ)
    (vars : Vars) (events : List TraceEvent)
    (hU : uniqueIds plan)
    (h : (runPlan plan registry opts procEnv now₀ ext₀).1 = .ok (vars, events)) :
    replayPlan plan { version := 1, events := events } = .ok vars := by
  rw [runPlan_eq] at h
  rcases hrs : runSteps (planCtx registry opts procEnv) plan.steps (planInit plan now₀ ext₀)
    with ⟨r₀, st₂⟩
  rw [hrs] at h
  rcases r₀ with e | u
  · simp at h
  · cases u
    simp only [] at h
    injection h with h1
    injection h1 with hA hB
    subst hA
    subst hB
    have hrep := runSteps_replay plan.steps (planCtx registry opts procEnv)
      (planInit plan now₀ ext₀) st₂ [.planEnd st₂.now plan.id true] hU ?_ hrs
    · unfold replayPlan
      simp only [addEvent]
      exact hrep
    · intro s hs e he
      simp only [planInit, List.mem_singleton] at he
      subst he
      exact isEndOf_planStart s now₀ plan.id

/-- C1 witness: the spec's concrete scenario replayed from its own trace. -/
theorem c1_witness :
    uniqueIds wPlan ∧
    replayPlan wPlan { version := 1, events := (wRun.1.toOption.getD ([], [])).2 } =
      .ok (wRun.1.toOption.getD ([], [])).1 :=
  ⟨by decide, c1_replay_determinism Unit wPlan [addOneReg] wOpts [] 0 ()
    (wRun.1.toOption.getD ([], [])).1 (wRun.1.toOption.getD ([], [])).2 (by decide) (by rfl)⟩

/-- C3: `plan:end { ok := true }` appears in the trace iff the run
succeeded; an `error` event appears iff some attempt failed (the ghost
log records exactly the failed attempts); and a failed run's trace
contains no `plan:end` event of any kind. -/
theorem c3_trace_completeness (σ : Type) (plan : ThoughtPlan)
    (registry : List (ToolRegistration σ)) (opts : RuntimeOptions σ)
    (procEnv : List (String × String)) (now₀ : Nat) (ext₀ : σ) :
    ((∃ ts, TraceEvent.planEnd ts plan.id true ∈
        (runPlan plan registry opts procEnv now₀ ext₀).2.events) ↔
      exOk (runPlan plan registry opts procEnv now₀ ext₀).1 = true) ∧
    ((∃ e ∈ (runPlan plan registry opts procEnv now₀ ext₀).2.events, isErrorEv e = true) ↔
      (∃ g ∈ (runPlan plan registry opts procEnv now₀ ext₀).2.glog, isGfail g = true)) ∧
    (exOk (runPlan plan registry opts procEnv now₀ ext₀).1 = false →
      ∀ ts pid b, TraceEvent.planEnd ts pid b ∉
        (runPlan plan registry opts procEnv now₀ ext₀).2.events) := by
  rw [runPlan_eq]
  rcases hrs : runSteps (planCtx registry opts procEnv) plan.steps (planInit plan now₀ ext₀)
    with ⟨r₀, st₂⟩
  have herrcnt := runSteps_err_lockstep plan.steps _ _ _ _ hrs
  have hinitE : ((planInit plan now₀ ext₀ : RunState σ)).events.countP isErrorEv = 0 := by
    simp [planInit, isErrorEv]
  have hinitG : ((planInit plan now₀ ext₀ : RunState σ)).glog.countP isGfail = 0 := by
    simp [planInit]
  have hkey : st₂.events.countP isErrorEv = st₂.glog.countP isGfail := by omega
  have hpe := runSteps_no_planEnd plan.steps _ _ _ _ hrs
  have hinitPE : ((planInit plan now₀ ext₀ : RunState σ)).events.countP isPlanEndEv = 0 := by
    simp [planInit, isPlanEndEv]
  have hnope : st₂.events.countP isPlanEndEv = 0 := by omega
  rcases r₀ with e | u
  · simp only []
    refine ⟨?_, ?_, ?_⟩
    · constructor
      · rintro ⟨ts, hmem⟩
        exfalso
        have hpos : 0 < st₂.events.countP isPlanEndEv :=
          List.countP_pos_iff.mpr ⟨_, hmem, rfl⟩
        omega
      · intro hok
        simp [exOk] at hok
    · constructor
      · rintro ⟨ev, hmem, hp⟩
        have h1 : 0 < st₂.events.countP isErrorEv := List.countP_pos_iff.mpr ⟨ev, hmem, hp⟩
        have h2 : 0 < st₂.glog.countP isGfail := by omega
        exact List.countP_pos_iff.mp h2
      · rintro ⟨g, hg, hgp⟩
        have h2 : 0 < st₂.glog.countP isGfail := List.countP_pos_iff.mpr ⟨g, hg, hgp⟩
        have h1 : 0 < st₂.events.countP isErrorEv := by omega
        exact List.countP_pos_iff.mp h1
    · intro _ ts pid b hmem
      have hpos : 0 < st₂.events.countP isPlanEndEv :=
        List.countP_pos_iff.mpr ⟨_, hmem, rfl⟩
      omega
  · simp only [addEvent]
    have hfE : (st₂.events ++ [TraceEvent.planEnd st₂.now plan.id true]).countP isErrorEv =
        st₂.events.countP isErrorEv := by
      rw [List.countP_append, List.countP_singleton]
      simp [isErrorEv]
    refine ⟨?_, ?_, ?_⟩
    · constructor
      · intro _
        rfl
      · intro _
        exact ⟨st₂.now, by simp⟩
    · constructor
      · rintro ⟨ev, hmem, hp⟩
        have hpos := List.countP_pos_iff.mpr ⟨ev, hmem, hp⟩
        rw [hfE] at hpos
        have h2 : 0 < st₂.glog.countP isGfail := by omega
        exact List.countP_pos_iff.mp h2
      · rintro ⟨g, hg, hgp⟩
        have h2 : 0 < st₂.glog.countP isGfail := List.countP_pos_iff.mpr ⟨g, hg, hgp⟩
        have h1 : 0 < st₂.events.countP isErrorEv := by omega
        obtain ⟨ev, hmem, hp⟩ := List.countP_pos_iff.mp h1
        exact ⟨ev, List.mem_append.mpr (Or.inl hmem), hp⟩
    · intro hok
      simp [exOk] at hok

/-- C2 counterexample: `aliasPlan` (with unique step ids, as the data
model requires) contains the unregistered tool step with id `"x"`; the
run fails, yet the final bindings do hold an entry at key `"x"`, written
by the earlier step's `assign` alias. -/
theorem c2_counterexample :
    ThoughtStep.tool { id := "x", toolName := "ghost", input := .vnone } ∈ aliasPlan.steps ∧
    registryFind [regOne] "ghost" = none ∧
    uniqueIds aliasPlan ∧
    exOk (runPlan aliasPlan [regOne] defOpts [] 0 ()).1 = false ∧
    varsGet (runPlan aliasPlan [regOne] defOpts [] 0 ()).2.vars "x" = some (.vint 1) := by
  refine ⟨by decide, rfl, by decide, by decide, by decide⟩

/-- C2 amended: a plan containing a tool step whose `toolName` is not in
the registry always fails; an `error` event records the terminating
failure's message before the rejection; and the bindings hold no entry at
the failing step's id nor at any later step's id — provided no earlier
step's id or `assign` alias coincides with one of those keys. -/
theorem c2_fail_fast (σ : Type) (plan : ThoughtPlan)
    (registry : List (ToolRegistration σ)) (opts : RuntimeOptions σ)
    (procEnv : List (String × String)) (now₀ : Nat) (ext₀ : σ)
    (l₁ l₂ : List ThoughtStep) (t : ToolStep)
    (hsteps : plan.steps = l₁ ++ ThoughtStep.tool t :: l₂)
    (hreg : registryFind registry t.toolName = none)
    (halias : ∀ s ∈ l₁, ∀ k, (k = t.id ∨ k ∈ l₂.map stepId) → k ∉ writesKeys s) :
    (∃ m, (runPlan plan registry opts procEnv now₀ ext₀).1 = .error m ∧
      ∃ ts sid, TraceEvent.error ts sid m none ∈
        (runPlan plan registry opts procEnv now₀ ext₀).2.events) ∧
    ∀ k, (k = t.id ∨ k ∈ l₂.map stepId) →
      varsGet (runPlan plan registry opts procEnv now₀ ext₀).2.vars k = none := by
  rcases h1 : runSteps (planCtx registry opts procEnv) l₁ (planInit plan now₀ ext₀)
    with ⟨r₁, stA⟩
  have hv : ∀ k, (k = t.id ∨ k ∈ l₂.map stepId) → varsGet stA.vars k = none := by
    intro k hk
    rw [runSteps_vars_pres l₁ _ _ _ _ k h1 fun s hsm => halias s hsm k hk]
    rfl
  rcases r₁ with e | u
  · have hrun : runPlan plan registry opts procEnv now₀ ext₀ = (.error e, stA) := by
      rw [runPlan_eq, hsteps, runSteps_append, h1]
    obtain ⟨ts, sid, hmem⟩ := runSteps_err_prop l₁ _ _ _ _ h1
    refine ⟨⟨e, by rw [hrun], ts, sid, by rw [hrun]; exact hmem⟩, ?_⟩
    intro k hk
    rw [hrun]
    exact hv k hk
  · cases u
    have hrun : runPlan plan registry opts procEnv now₀ ext₀ =
        (.error ("Tool not registered: " ++ t.toolName),
          gpush (.gfail t.id) (addEvent (.error stA.now (some t.id)
            ("Tool not registered: " ++ t.toolName) none) stA)) := by
      rw [runPlan_eq, hsteps, runSteps_append, h1]
      simp only []
      rw [runSteps]
      unfold runStep
      simp only [planCtx]
      rw [hreg]
    refine ⟨⟨_, by rw [hrun], stA.now, some t.id, ?_⟩, ?_⟩
    · rw [hrun]
      simp [gpush, addEvent]
    · intro k hk
      rw [hrun]
      simp only [gpush, addEvent]
      exact hv k hk

/-- C2 witness: a one-step plan with an unregistered tool; the run fails
and the bindings stay empty at the failing step's id. -/
theorem c2_witness :
    registryFind ([] : List (ToolRegistration Unit)) "ghost" = none ∧
    varsGet (runPlan ghostPlan [] defOpts [] 0 ()).2.vars "g" = none :=
  ⟨rfl, (c2_fail_fast Unit ghostPlan [] defOpts [] 0 () [] []
    { id := "g", toolName := "ghost", input := .vnone } rfl rfl (by simp)).2 "g"
    (Or.inl rfl)⟩

/-- C7 counterexample: with `retries := 5`, the unregistered-tool failure
is raised exactly once — a single `error` event and failure record, and
the clock never advances (no backoff), so the generic retry wrapper never
re-attempts it. -/
theorem c7_counterexample :
    (runPlan ghostPlan ([] : List (ToolRegistration Unit)) { retries := 5 } [] 0 ()).1 =
      .error "Tool not registered: ghost" ∧
    (runPlan ghostPlan ([] : List (ToolRegistration Unit)) { retries := 5 } [] 0
      ()).2.glog.countP (isGfailFor "g") = 1 ∧
    (runPlan ghostPlan ([] : List (ToolRegistration Unit)) { retries := 5 } [] 0 ()).2.now
      = 0 := by
  refine ⟨by rfl, by decide, by decide⟩

/-- C7 amended: the unregistered-tool check throws directly, outside the
retry wrapper.  For any retry setting, a reached unregistered tool step
aborts the run immediately with exactly one recorded failure, no retry
attempt and no backoff delay (the full final state is as written). -/
theorem c7_unregistered_no_retry (σ : Type) (registry : List (ToolRegistration σ))
    (opts : RuntimeOptions σ) (procEnv : List (String × String)) (now₀ : Nat) (ext₀ : σ)
    (t : ToolStep) (rest : List ThoughtStep) (pid : String)
    (md : Option (List (String × Val)))
    (hreg : registryFind registry t.toolName = none) :
    runPlan { id := pid, steps := .tool t :: rest, metadata := md } registry opts procEnv
        now₀ ext₀ =
      (.error ("Tool not registered: " ++ t.toolName),
        { now := now₀,
          events := [.planStart now₀ pid,
            .error now₀ (some t.id) ("Tool not registered: " ++ t.toolName) none],
          vars := [], ext := ext₀, glog := [.gfail t.id] }) := by
  rw [runPlan_eq]
  simp only []
  rw [runSteps]
  unfold runStep
  simp only [planCtx]
  rw [hreg]
  simp [planInit, addEvent, gpush]

/-- A think attempt without a bridge fails every time, so the retry loop
performs its full budget of attempts, recording one failure each. -/
theorem noBridge_retry (σ : Type) (otu : Option (TokenUsage → σ → σ)) (t : ThinkStep) :
    ∀ (k a : Nat) (st : RunState σ),
    (retryAux (runOnceThink none otu t) (mkOnError t.id) a k st).1 =
      .error "No bridge provided for think step" ∧
    (retryAux (runOnceThink none otu t) (mkOnError t.id) a k st).2.glog.countP
      (isGfailFor t.id) = st.glog.countP (isGfailFor t.id) + (k + 1) := by
  intro k
  induction k with
  | zero =>
    intro a st
    rw [retryAux]
    simp only [runOnceThink]
    constructor
    · trivial
    · simp [mkOnError, addEvent, gpush, isGfailFor]
  | succ k ih =>
    intro a st
    rw [retryAux]
    simp only [runOnceThink]
    constructor
    · exact (ih (a + 1) _).1
    · rw [(ih (a + 1) _).2]
      simp [mkOnError, addEvent, gpush, List.countP_append, isGfailFor]
      omega

/-- A single think step with no configured bridge: the loop fails with the
configuration error after `retries.toNat + 1` recorded failed attempts. -/
theorem noBridge_runSteps (σ : Type) (C : RunCtx σ) (t : ThinkStep) (st : RunState σ)
    (hnb : C.bridge = none) :
    (runSteps C [.think t] st).1 = .error "No bridge provided for think step" ∧
    (runSteps C [.think t] st).2.glog.countP (isGfailFor t.id) =
      st.glog.countP (isGfailFor t.id) + (C.retries.toNat + 1) := by
  rw [runSteps]
  rcases hs : runStep C (.think t) st with ⟨r₀, st₁⟩
  unfold runStep at hs
  simp only [] at hs
  rw [hnb] at hs
  unfold retryWithBackoff at hs
  have key := noBridge_retry σ C.onTokenUsage t C.retries.toNat 0
    (addEvent (.thinkStart st.now t.id t.prompt) (gpush (.gstart t.id) st))
  rw [hs] at key
  obtain ⟨key1, key2⟩ := key
  simp only [] at key1
  subst key1
  simp only []
  refine ⟨trivial, ?_⟩
  rw [key2]
  simp [addEvent, gpush, isGfailFor]

/-- C5 counterexample: a think step with no bridge and `retries := 1`
rejects only after two failed attempts — two `error` events — and after a
`2^0`-second backoff delay (the clock advanced by 1000 ms), so the
configuration error is retried, not fatal immediately. -/
theorem c5_counterexample :
    (runPlan thinkPlan ([] : List (ToolRegistration Unit)) { retries := 1 } [] 0 ()).1 =
      .error "No bridge provided for think step" ∧
    (runPlan thinkPlan ([] : List (ToolRegistration Unit)) { retries := 1 } [] 0
      ()).2.events.countP isErrorEv = 2 ∧
    (runPlan thinkPlan ([] : List (ToolRegistration Unit)) { retries := 1 } [] 0 ()).2.now
      = 1000 := by
  refine ⟨by rfl, by decide, by decide⟩

/-- C5 amended: a think step with no configured bridge always fails the
run, but the configuration error is raised inside the retried operation:
the runner performs `retries.toNat + 1` failing attempts (with backoff
between them) before rejecting — it is not fatal on the first attempt. -/
theorem c5_no_bridge_retried (σ : Type) (registry : List (ToolRegistration σ))
    (opts : RuntimeOptions σ) (procEnv : List (String × String)) (now₀ : Nat) (ext₀ : σ)
    (t : ThinkStep) (pid : String) (md : Option (List (String × Val)))
    (hnb : opts.bridge = none) :
    (runPlan { id := pid, steps := [.think t], metadata := md } registry opts procEnv
        now₀ ext₀).1 = .error "No bridge provided for think step" ∧
    (runPlan { id := pid, steps := [.think t], metadata := md } registry opts procEnv
        now₀ ext₀).2.glog.countP (isGfailFor t.id) = opts.retries.toNat + 1 := by
  rw [runPlan_eq]
  rcases hrs : runSteps (planCtx registry opts procEnv) [ThoughtStep.think t]
    (planInit { id := pid, steps := [.think t], metadata := md } now₀ ext₀) with ⟨rr, st₂⟩
  have key := noBridge_runSteps σ (planCtx registry opts procEnv) t
    (planInit { id := pid, steps := [.think t], metadata := md } now₀ ext₀)
    (by simp [planCtx, hnb])
  rw [hrs] at key
  obtain ⟨key1, key2⟩ := key
  simp only [] at key1
  subst key1
  simp only []
  refine ⟨trivial, ?_⟩
  rw [key2]
  simp [planInit, planCtx]

/-- C5 witness: with `retries := 1`, a bridgeless think step fails after
two recorded attempts. -/
theorem c5_witness :
    ({ retries := 1 } : RuntimeOptions Unit).bridge = none ∧
    (runPlan thinkPlan [] { retries := 1 } [] 0 ()).2.glog.countP (isGfailFor "a") = 2 :=
  ⟨rfl, (c5_no_bridge_retried Unit [] { retries := 1 } [] 0 ()
    { id := "a", prompt := "x" } "pt" none rfl).2⟩

/-- C8 counterexample: on `overwritePlan` the run succeeds, but the later
step with id `"b"` overwrites the alias binding `"b"` declared by the
first step, so the alias binding no longer equals the binding at the
assigning step's id `"a"`. -/
theorem c8_counterexample :
    exOk (runPlan overwritePlan [regOne, regTwo] defOpts [] 0 ()).1 = true ∧
    varsGet (runPlan overwritePlan [regOne, regTwo] defOpts [] 0 ()).2.vars "a" =
      some (.vint 1) ∧
    varsGet (runPlan overwritePlan [regOne, regTwo] defOpts [] 0 ()).2.vars "b" =
      some (.vint 2) ∧
    varsGet (runPlan overwritePlan [regOne, regTwo] defOpts [] 0 ()).2.vars "b" ≠
      varsGet (runPlan overwritePlan [regOne, regTwo] defOpts [] 0 ()).2.vars "a" := by
  refine ⟨by decide, by decide, by decide, by decide⟩

/-- C8 amended: on every successful run, a tool step's alias binding
equals its step-id binding, provided no later step writes either key
(neither as its id nor as its own `assign` alias). -/
theorem c8_alias_invariant (σ : Type) (plan : ThoughtPlan)
    (registry : List (ToolRegistration σ)) (opts : RuntimeOptions σ)
    (procEnv : List (String × String)) (now₀ : Nat) (ext₀ : σ)
    (l₁ l₂ : List ThoughtStep) (t : ToolStep) (a : String)
    (hsteps : plan.steps = l₁ ++ ThoughtStep.tool t :: l₂)
    (hassign : t.assign = some a)
    (hl₂ : ∀ s ∈ l₂, a ∉ writesKeys s ∧ t.id ∉ writesKeys s)
    (hok : exOk (runPlan plan registry opts procEnv now₀ ext₀).1 = true) :
    varsGet (runPlan plan registry opts procEnv now₀ ext₀).2.vars a =
      varsGet (runPlan plan registry opts procEnv now₀ ext₀).2.vars t.id ∧
    (∃ v, varsGet (runPlan plan registry opts procEnv now₀ ext₀).2.vars a = some v) := by
  rw [runPlan_eq] at hok ⊢
  rcases hrs : runSteps (planCtx registry opts procEnv) plan.steps (planInit plan now₀ ext₀)
    with ⟨r₀, st₂⟩
  rw [hrs] at hok
  rcases r₀ with e | u
  · simp [exOk] at hok
  · cases u
    simp only [addEvent]
    rw [hsteps, runSteps_append] at hrs
    rcases h1 : runSteps (planCtx registry opts procEnv) l₁ (planInit plan now₀ ext₀)
      with ⟨r₁, stA⟩
    rw [h1] at hrs
    rcases r₁ with e | u₁
    · simp at hrs
    · cases u₁
      simp only [] at hrs
      rw [runSteps] at hrs
      rcases h2 : runStep (planCtx registry opts procEnv) (.tool t) stA with ⟨r₂, stB⟩
      rw [h2] at hrs
      rcases r₂ with e | u₂
      · simp at hrs
      · cases u₂
        simp only [] at hrs
        obtain ⟨Δ, γ, _, _, _, _, _, _, _, _, _, _, hOk, _⟩ := runStep_shape (planCtx registry opts procEnv) (ThoughtStep.tool t) stA h2
        obtain ⟨Δ₁, eE, out, hΔ, hN, hend, hval, hvars⟩ := hOk () rfl
        have hga : varsGet stB.vars a = some out := by
          rw [hvars]
          exact varsGet_writeStep_alias t a out _ hassign
        have hgi : varsGet stB.vars t.id = some out := by
          rw [hvars]
          have hh := varsGet_writeStep_id (.tool t) out stA.vars
          simpa [stepId] using hh
        have hpa := runSteps_vars_pres l₂ _ _ _ _ a hrs fun s hsm => (hl₂ s hsm).1
        have hpi := runSteps_vars_pres l₂ _ _ _ _ t.id hrs fun s hsm => (hl₂ s hsm).2
        rw [hpa, hpi, hga, hgi]
        exact ⟨rfl, ⟨out, rfl⟩⟩

/-- C8 witness: the spec's concrete scenario, where the alias `"answer"`
agrees with the step binding `"u"`. -/
theorem c8_witness :
    exOk (runPlan wPlan [addOneReg] wOpts [] 0 ()).1 = true ∧
    varsGet (runPlan wPlan [addOneReg] wOpts [] 0 ()).2.vars "answer" =
      varsGet (runPlan wPlan [addOneReg] wOpts [] 0 ()).2.vars "u" :=
  ⟨by decide, (c8_alias_invariant Unit wPlan [addOneReg] wOpts [] 0 ()
    [.think { id := "t", prompt := "hello" }] []
    { id := "u", toolName := "add_one", input := .vint 41, assign := some "answer" }
    "answer" rfl rfl (by simp) (by decide)).1⟩

/-- C9 counterexample: with the `env` option omitted, the runner defaults
to the ambient process environment and hands it to tool handlers; two
runs differing only in the process environment produce different
bindings. -/
theorem c9_counterexample :
    defOpts.env = none ∧
    varsGet (runPlan envPlan [envReg] defOpts [("HOME", "/a")] 0 ()).2.vars "g" =
      some (.vstr "/a") ∧
    varsGet (runPlan envPlan [envReg] defOpts [("HOME", "/b")] 0 ()).2.vars "g" =
      some (.vstr "/b") ∧
    varsGet (runPlan envPlan [envReg] defOpts [("HOME", "/a")] 0 ()).2.vars "g" ≠
      varsGet (runPlan envPlan [envReg] defOpts [("HOME", "/b")] 0 ()).2.vars "g" := by
  refine ⟨rfl, by decide, by decide, by decide⟩

/-- C9 amended: when the environment mapping is passed explicitly, the
whole observable result of `runPlan` is independent of the process
environment; when `env` is omitted, the source defaults to `process.env`,
so this independence fails (see the counterexample). -/
theorem c9_env_explicit (σ : Type) (plan : ThoughtPlan)
    (registry : List (ToolRegistration σ)) (opts : RuntimeOptions σ)
    (e : List (String × String)) (procEnv₁ procEnv₂ : List (String × String))
    (now₀ : Nat) (ext₀ : σ) (henv : opts.env = some e) :
    runPlan plan registry opts procEnv₁ now₀ ext₀ =
      runPlan plan registry opts procEnv₂ now₀ ext₀ := by
  simp only [runPlan, henv, Option.getD_some]

/-- C9 witness: with an explicit `env`, the two differing process
environments yield identical runs. -/
theorem c9_witness :
    opts9.env = some [("HOME", "/x")] ∧
    runPlan envPlan [envReg] opts9 [("HOME", "/a")] 0 () =
      runPlan envPlan [envReg] opts9 [("HOME", "/b")] 0 () :=
  ⟨rfl, c9_env_explicit Unit envPlan [envReg] opts9 [("HOME", "/x")]
    [("HOME", "/a")] [("HOME", "/b")] 0 () rfl⟩

/-- C10: with unique step ids, the trace counts per step match the ghost
instrumentation exactly — the step's start event appears as many times as
the step was begun (at most once, never repeated across retry attempts),
one error event per failed attempt, and the completion event exactly once
on success only (every step completes exactly once on a successful run). -/
theorem c10_event_multiplicity (σ : Type) (plan : ThoughtPlan)
    (registry : List (ToolRegistration σ)) (opts : RuntimeOptions σ)
    (procEnv : List (String × String)) (now₀ : Nat) (ext₀ : σ)
    (hU : uniqueIds plan) :
    ∀ s ∈ plan.steps,
      (runPlan plan registry opts procEnv now₀ ext₀).2.events.countP
          (isStartEvFor (stepId s)) =
        (runPlan plan registry opts procEnv now₀ ext₀).2.glog.countP
          (isGstartFor (stepId s)) ∧
      (runPlan plan registry opts procEnv now₀ ext₀).2.events.countP
          (isStartEvFor (stepId s)) ≤ 1 ∧
      (runPlan plan registry opts procEnv now₀ ext₀).2.events.countP
          (isEndEvFor (stepId s)) =
        (runPlan plan registry opts procEnv now₀ ext₀).2.glog.countP
          (isGdoneFor (stepId s)) ∧
      (runPlan plan registry opts procEnv now₀ ext₀).2.events.countP
          (isEndEvFor (stepId s)) ≤ 1 ∧
      (runPlan plan registry opts procEnv now₀ ext₀).2.events.countP
          (isErrorEvFor (stepId s)) =
        (runPlan plan registry opts procEnv now₀ ext₀).2.glog.countP
          (isGfailFor (stepId s)) ∧
      (exOk (runPlan plan registry opts procEnv now₀ ext₀).1 = true →
        (runPlan plan registry opts procEnv now₀ ext₀).2.events.countP
          (isEndEvFor (stepId s)) = 1) := by
  intro s hsmem
  rw [runPlan_eq]
  rcases hrs : runSteps (planCtx registry opts procEnv) plan.steps (planInit plan now₀ ext₀)
    with ⟨r₀, st₂⟩
  obtain ⟨lk1, lk2, lk3⟩ := runSteps_id_lockstep plan.steps _ _ _ _ hrs (stepId s)
  have hdone := runSteps_step_done plan.steps _ _ _ _ hrs s hsmem hU (by simp [planInit])
    (by simp [planInit])
  obtain ⟨d1, d2, d3⟩ := hdone
  have hiS : ((planInit plan now₀ ext₀ : RunState σ)).events.countP
      (isStartEvFor (stepId s)) = 0 := by simp [planInit, isStartEvFor]
  have hiE : ((planInit plan now₀ ext₀ : RunState σ)).events.countP
      (isEndEvFor (stepId s)) = 0 := by simp [planInit, isEndEvFor]
  have hiR : ((planInit plan now₀ ext₀ : RunState σ)).events.countP
      (isErrorEvFor (stepId s)) = 0 := by simp [planInit, isErrorEvFor]
  have hgS : ((planInit plan now₀ ext₀ : RunState σ)).glog.countP
      (isGstartFor (stepId s)) = 0 := by simp [planInit]
  have hgE : ((planInit plan now₀ ext₀ : RunState σ)).glog.countP
      (isGdoneFor (stepId s)) = 0 := by simp [planInit]
  have hgR : ((planInit plan now₀ ext₀ : RunState σ)).glog.countP
      (isGfailFor (stepId s)) = 0 := by simp [planInit]
  rcases r₀ with e | u
  · simp only []
    refine ⟨by omega, ?_, by omega, ?_, by omega, ?_⟩
    · omega
    · omega
    · intro hh
      simp [exOk] at hh
  · have hpe1 : (st₂.events ++ [TraceEvent.planEnd st₂.now plan.id true]).countP
        (isStartEvFor (stepId s)) = st₂.events.countP (isStartEvFor (stepId s)) := by
      rw [List.countP_append, List.countP_singleton]
      simp [isStartEvFor]
    have hpe2 : (st₂.events ++ [TraceEvent.planEnd st₂.now plan.id true]).countP
        (isEndEvFor (stepId s)) = st₂.events.countP (isEndEvFor (stepId s)) := by
      rw [List.countP_append, List.countP_singleton]
      simp [isEndEvFor]
    have hpe3 : (st₂.events ++ [TraceEvent.planEnd st₂.now plan.id true]).countP
        (isErrorEvFor (stepId s)) = st₂.events.countP (isErrorEvFor (stepId s)) := by
      rw [List.countP_append, List.countP_singleton]
      simp [isErrorEvFor]
    have hd3 := d3 () rfl
    simp only [addEvent]
    rw [hpe1, hpe2, hpe3]
    refine ⟨by omega, by omega, by omega, by omega, by omega, fun _ => by omega⟩

/-- C10 witness: the spec scenario's think step starts exactly as often as
the ghost log records. -/
theorem c10_witness :
    uniqueIds wPlan ∧
    (runPlan wPlan [addOneReg] wOpts [] 0 ()).2.events.countP (isStartEvFor "t") =
      (runPlan wPlan [addOneReg] wOpts [] 0 ()).2.glog.countP (isGstartFor "t") :=
  ⟨by decide, (c10_event_multiplicity Unit wPlan [addOneReg] wOpts [] 0 () (by decide)
    (.think { id := "t", prompt := "hello" }) (by decide)).1⟩

/-- One attempt of the flaky tool: fails (bumping its call counter) while
the counter is below `r`, succeeds with `7` afterwards. -/
theorem flaky_fn (r : Nat) (C : RunCtx Nat) (started : Nat) (st : RunState Nat) :
    runOnceTool C (flakyReg r) { id := "s", toolName := "flaky", input := .vnone } started st =
      if st.ext < r then (.error "boom", { st with ext := st.ext + 1 })
      else (.ok (), addEvent (.toolEnd st.now "s" "flaky" (.vint 7) (st.now - started))
        (gpush (.gdone "s")
          { st with ext := st.ext + 1, vars := varsSet st.vars "s" (.vint 7) })) := by
  by_cases hlt : st.ext < r
  · rw [if_pos hlt]
    simp [runOnceTool, flakyReg, hlt, addEvent, gpush]
  · rw [if_neg hlt]
    simp [runOnceTool, flakyReg, hlt, addEvent, gpush]

/-- Running the flaky tool with enough retry budget: exactly `r - a`
further failures, then success, with the backoff delays summing to
`(2^r - 2^a) * 1000` ms and the call counter ending at `r + 1`. -/
theorem flaky_retry (r : Nat) (C : RunCtx Nat) (started : Nat) :
    ∀ (k a : Nat) (st : RunState Nat), st.ext = a → a + k = r →
    (retryAux (runOnceTool C (flakyReg r) { id := "s", toolName := "flaky", input := .vnone }
        started) (mkOnError "s") a k st).1 = .ok () ∧
    (retryAux (runOnceTool C (flakyReg r) { id := "s", toolName := "flaky", input := .vnone }
        started) (mkOnError "s") a k st).2.ext = r + 1 ∧
    (retryAux (runOnceTool C (flakyReg r) { id := "s", toolName := "flaky", input := .vnone }
        started) (mkOnError "s") a k st).2.now = st.now + (2 ^ r - 2 ^ a) * 1000 ∧
    varsGet (retryAux (runOnceTool C (flakyReg r)
        { id := "s", toolName := "flaky", input := .vnone } started) (mkOnError "s") a k
        st).2.vars "s" = some (.vint 7) ∧
    (retryAux (runOnceTool C (flakyReg r) { id := "s", toolName := "flaky", input := .vnone }
        started) (mkOnError "s") a k st).2.glog.countP (isGfailFor "s") =
      st.glog.countP (isGfailFor "s") + (r - a) := by
  intro k
  induction k with
  | zero =>
    intro a st hext har
    have har' : a = r := by omega
    subst har'
    have hge : ¬ st.ext < a := by omega
    rw [retryAux, flaky_fn, if_neg hge]
    simp only []
    refine ⟨trivial, ?_, ?_, ?_, ?_⟩
    · simp [addEvent, gpush, hext]
    · simp [addEvent, gpush]
    · simp [addEvent, gpush, varsGet_set_self]
    · simp [addEvent, gpush, List.countP_append, isGfailFor]
  | succ k ih =>
    intro a st hext har
    have hlt : st.ext < r := by omega
    rw [retryAux, flaky_fn, if_pos hlt]
    simp only []
    set S := mkOnError "s" "boom" { st with ext := st.ext + 1 } with hSdef
    have hS1 : ({ S with now := S.now + 2 ^ a * 1000 } : RunState Nat).ext = a + 1 := by
      rw [hSdef]
      simp [mkOnError, addEvent, gpush, hext]
    have hS2 : ({ S with now := S.now + 2 ^ a * 1000 } : RunState Nat).now =
        st.now + 2 ^ a * 1000 := by
      rw [hSdef]
      simp [mkOnError, addEvent, gpush]
    have hS3 : ({ S with now := S.now + 2 ^ a * 1000 } : RunState Nat).glog.countP
        (isGfailFor "s") = st.glog.countP (isGfailFor "s") + 1 := by
      rw [hSdef]
      simp [mkOnError, addEvent, gpush, List.countP_append, isGfailFor]
    obtain ⟨cA, cB, cC, cD, cE⟩ :=
      ih (a + 1) { S with now := S.now + 2 ^ a * 1000 } hS1 (by omega)
    have hpow : 2 ^ (a + 1) ≤ 2 ^ r := Nat.pow_le_pow_right (by norm_num) (by omega)
    have hpows : 2 ^ (a + 1) = 2 * 2 ^ a := by
      rw [pow_succ]
      ring
    have hpow2 : 2 ^ a ≤ 2 ^ r := Nat.pow_le_pow_right (by norm_num) (by omega)
    refine ⟨cA, cB, ?_, cD, ?_⟩
    · rw [cC, hS2]
      omega
    · rw [cE, hS3]
      omega

/-- Running the flaky tool with an exhausted (or too small) retry budget:
every attempt fails, and the loop re-raises `"boom"`. -/
theorem flaky_retry_fail (r : Nat) (C : RunCtx Nat) (started : Nat) :
    ∀ (k a : Nat) (st : RunState Nat), st.ext = a → a + k < r →
    (retryAux (runOnceTool C (flakyReg r) { id := "s", toolName := "flaky", input := .vnone }
        started) (mkOnError "s") a k st).1 = .error "boom" := by
  intro k
  induction k with
  | zero =>
    intro a st hext har
    have hlt : st.ext < r := by omega
    rw [retryAux, flaky_fn, if_pos hlt]
  | succ k ih =>
    intro a st hext har
    have hlt : st.ext < r := by omega
    rw [retryAux, flaky_fn, if_pos hlt]
    simp only []
    refine ih (a + 1) _ ?_ (by omega)
    simp [mkOnError, addEvent, gpush, hext]

/-- C4 counterexample: a handler failing exactly `r = 0` times (it always
succeeds), run with `retries = r - 1 = -1`, completes the plan
successfully with the result bound — the claim's `retries = r - 1` half
fails at `r = 0`. -/
theorem c4_counterexample :
    exOk (runPlan flakyPlan [flakyReg 0] { retries := -1 } [] 0 0).1 = true ∧
    varsGet (runPlan flakyPlan [flakyReg 0] { retries := -1 } [] 0 0).2.vars "s" =
      some (.vint 7) := by
  refine ⟨by decide, by decide⟩

/-- C4 amended (restricted to `r ≥ 1`, as forced by the `r = 0`
counterexample): with `retries = r` the flaky handler is attempted exactly
`r + 1` times (call counter `r + 1`, `r` recorded failures) with backoff
delays of `2^attempt` seconds summing to `(2^r - 1)` seconds, and the run
succeeds with the final result bound at the step id; with
`retries = r - 1` the whole plan fails. -/
theorem c4_retry_boundary (r : Nat) (hr : 1 ≤ r) (now₀ : Nat) :
    exOk (runPlan flakyPlan [flakyReg r] { retries := (r : Int) } [] now₀ 0).1 = true ∧
    varsGet (runPlan flakyPlan [flakyReg r] { retries := (r : Int) } [] now₀ 0).2.vars "s" =
      some (.vint 7) ∧
    (runPlan flakyPlan [flakyReg r] { retries := (r : Int) } [] now₀ 0).2.ext = r + 1 ∧
    (runPlan flakyPlan [flakyReg r] { retries := (r : Int) } [] now₀
      0).2.glog.countP (isGfailFor "s") = r ∧
    (runPlan flakyPlan [flakyReg r] { retries := (r : Int) } [] now₀ 0).2.now =
      now₀ + (2 ^ r - 1) * 1000 ∧
    (runPlan flakyPlan [flakyReg r] { retries := (r : Int) - 1 } [] now₀ 0).1 =
      .error "boom" := by
  have hstep : ∀ (opts : RuntimeOptions Nat) (st : RunState Nat),
      runStep (planCtx [flakyReg r] opts [])
        (.tool { id := "s", toolName := "flaky", input := .vnone }) st =
      retryAux (runOnceTool (planCtx [flakyReg r] opts [])
        (flakyReg r) { id := "s", toolName := "flaky", input := .vnone }
        (addEvent (.toolStart st.now "s" "flaky" .vnone) (gpush (.gstart "s") st)).now)
        (mkOnError "s") 0 opts.retries.toNat
        (addEvent (.toolStart st.now "s" "flaky" .vnone) (gpush (.gstart "s") st)) := by
    intro opts st
    rfl
  have htn1 : (({ retries := (r : Int) } : RuntimeOptions Nat)).retries.toNat = r := by
    simp
  have htn2 : (({ retries := (r : Int) - 1 } : RuntimeOptions Nat)).retries.toNat = r - 1 := by
    simp only []
    omega
  -- the successful run
  rcases hs : runStep (planCtx [flakyReg r] { retries := (r : Int) } [])
      (.tool { id := "s", toolName := "flaky", input := .vnone })
      (planInit flakyPlan now₀ 0) with ⟨r₀, st₁⟩
  rw [hstep { retries := (r : Int) } (planInit flakyPlan now₀ 0), htn1] at hs
  obtain ⟨k1, k2, k3, k4, k5⟩ := flaky_retry r (planCtx [flakyReg r] { retries := (r : Int) } [])
    (addEvent (.toolStart (planInit flakyPlan now₀ 0).now "s" "flaky" .vnone)
      (gpush (.gstart "s") (planInit flakyPlan now₀ 0))).now r 0
    (addEvent (.toolStart (planInit flakyPlan now₀ 0).now "s" "flaky" .vnone)
      (gpush (.gstart "s") (planInit flakyPlan now₀ 0)))
    (by simp [addEvent, gpush, planInit]) (by omega)
  rw [hs] at k1 k2 k3 k4 k5
  simp only [] at k1 k2 k3 k4 k5
  subst k1
  have hrs : runSteps (planCtx [flakyReg r] { retries := (r : Int) } []) flakyPlan.steps
      (planInit flakyPlan now₀ 0) = (.ok (), st₁) := by
    show runSteps _ [ThoughtStep.tool { id := "s", toolName := "flaky", input := .vnone }] _ = _
    rw [runSteps, hstep { retries := (r : Int) } (planInit flakyPlan now₀ 0), htn1, hs]
    rfl
  -- the failing run
  rcases hs2 : runStep (planCtx [flakyReg r] { retries := (r : Int) - 1 } [])
      (.tool { id := "s", toolName := "flaky", input := .vnone })
      (planInit flakyPlan now₀ 0) with ⟨r₂, st₃⟩
  rw [hstep { retries := (r : Int) - 1 } (planInit flakyPlan now₀ 0), htn2] at hs2
  have kf := flaky_retry_fail r (planCtx [flakyReg r] { retries := (r : Int) - 1 } [])
    (addEvent (.toolStart (planInit flakyPlan now₀ 0).now "s" "flaky" .vnone)
      (gpush (.gstart "s") (planInit flakyPlan now₀ 0))).now (r - 1) 0
    (addEvent (.toolStart (planInit flakyPlan now₀ 0).now "s" "flaky" .vnone)
      (gpush (.gstart "s") (planInit flakyPlan now₀ 0)))
    (by simp [addEvent, gpush, planInit]) (by omega)
  rw [hs2] at kf
  simp only [] at kf
  subst kf
  have hrs2 : runSteps (planCtx [flakyReg r] { retries := (r : Int) - 1 } []) flakyPlan.steps
      (planInit flakyPlan now₀ 0) = (.error "boom", st₃) := by
    show runSteps _ [ThoughtStep.tool { id := "s", toolName := "flaky", input := .vnone }] _ = _
    rw [runSteps, hstep { retries := (r : Int) - 1 } (planInit flakyPlan now₀ 0), htn2, hs2]
  rw [runPlan_eq, runPlan_eq, hrs, hrs2]
  simp only [addEvent, exOk]
  refine ⟨trivial, k4, k2, ?_, ?_, trivial⟩
  · rw [k5]
    simp [addEvent, gpush, planInit, isGfailFor]
  · rw [k3]
    simp [addEvent, gpush, planInit, pow_zero]

/-- C4 witness: the retry boundary at `r = 2` — with `retries := 2` the
handler that fails twice then succeeds completes the run (three calls,
two recorded failures, 3000 ms of backoff), while `retries := 1`
re-raises `"boom"`. -/
theorem c4_witness :
    exOk (runPlan flakyPlan [flakyReg 2] { retries := (2 : Int) } [] 0 0).1 = true ∧
    varsGet (runPlan flakyPlan [flakyReg 2] { retries := (2 : Int) } [] 0 0).2.vars "s" =
      some (.vint 7) ∧
    (runPlan flakyPlan [flakyReg 2] { retries := (2 : Int) } [] 0 0).2.ext = 2 + 1 ∧
    (runPlan flakyPlan [flakyReg 2] { retries := (2 : Int) } [] 0
      0).2.glog.countP (isGfailFor "s") = 2 ∧
    (runPlan flakyPlan [flakyReg 2] { retries := (2 : Int) } [] 0 0).2.now =
      0 + (2 ^ 2 - 1) * 1000 ∧
    (runPlan flakyPlan [flakyReg 2] { retries := (2 : Int) - 1 } [] 0 0).1 =
      .error "boom" :=
  c4_retry_boundary 2 (by decide) 0

/-- One successful attempt of a registered tool in closed form: the
handler's verdict alone decides the attempt — its duration `d` advances
the clock but is never compared against `maxStepMs`. -/
theorem runOnceTool_ok_eq (C : RunCtx σ) (reg : ToolRegistration σ) (t : ToolStep)
    (started : Nat) (st : RunState σ) (out : Val) (d : Nat) (x' : σ)
    (hassign : t.assign = none)
    (hh : reg.handler t.input
        { env := C.env, vars := st.vars, signalAbortAfterMs := C.maxStepMs } st.ext =
        (.ok out, d, x')) :
    runOnceTool C reg t started st =
      (.ok (), addEvent (.toolEnd (st.now + d) t.id reg.name out (st.now + d - started))
        (gpush (.gdone t.id)
          { st with now := st.now + d, ext := x', vars := varsSet st.vars t.id out })) := by
  unfold runOnceTool
  rw [hh]
  simp only [hassign]

/-- A registered tool step whose handler succeeds, in closed form: the one
attempt ends the retry loop immediately, whatever the budget. -/
theorem runStep_tool_ok (C : RunCtx σ) (reg : ToolRegistration σ) (t : ToolStep)
    (st : RunState σ) (out : Val) (d : Nat) (x' : σ)
    (hfind : registryFind C.registry t.toolName = some reg)
    (hassign : t.assign = none)
    (hh : reg.handler t.input
        { env := C.env, vars := st.vars, signalAbortAfterMs := C.maxStepMs } st.ext =
        (.ok out, d, x')) :
    runStep C (.tool t) st =
      (.ok (), addEvent (.toolEnd (st.now + d) t.id reg.name out (st.now + d - st.now))
        (gpush (.gdone t.id)
          { now := st.now + d,
            events := st.events ++ [.toolStart st.now t.id reg.name t.input],
            vars := varsSet st.vars t.id out, ext := x',
            glog := st.glog ++ [.gstart t.id] })) := by
  unfold runStep
  simp only []
  rw [hfind]
  simp only []
  rw [retryWithBackoff, retryAux,
    runOnceTool_ok_eq C reg t
      (addEvent (.toolStart st.now t.id reg.name t.input) (gpush (.gstart t.id) st)).now
      (addEvent (.toolStart st.now t.id reg.name t.input) (gpush (.gstart t.id) st))
      out d x' hassign hh]
  rfl

/-- A singleton step list just runs its one step when that step succeeds. -/
theorem runSteps_singleton_ok (C : RunCtx σ) (s : ThoughtStep) (st st' : RunState σ)
    (h : runStep C s st = (.ok (), st')) :
    runSteps C [s] st = (.ok (), st') := by
  rw [runSteps, h]
  rfl

/-- C6 counterexample: a registered tool whose handler takes 999999 ms —
far beyond the default `maxStepMs` of 120000 ms — still completes
successfully: the attempt is **not** settled as a failure when
`maxStepMs` is exceeded, no error event is recorded, nothing is retried,
and the clock shows the full 999999 ms elapsed. -/
theorem c6_counterexample :
    120000 < 999999 ∧
    exOk (runPlan slowPlan [slowReg] defOpts [] 0 ()).1 = true ∧
    varsGet (runPlan slowPlan [slowReg] defOpts [] 0 ()).2.vars "w" = some (.vint 5) ∧
    (runPlan slowPlan [slowReg] defOpts [] 0 ()).2.events.countP isErrorEv = 0 ∧
    (runPlan slowPlan [slowReg] defOpts [] 0 ()).2.glog.countP (isGfailFor "w") = 0 ∧
    (runPlan slowPlan [slowReg] defOpts [] 0 ()).2.now = 999999 := by
  refine ⟨by decide, by decide, by decide, by decide, by decide, by decide⟩

/-- C6 amended: there is no per-attempt timeout.  The cancellation datum
(`signalAbortAfterMs = maxStepMs`, the `AbortController` armed by
`setTimeout(maxStepMs)`) is indeed handed to the tool handler, but the
runner always awaits the operation to completion: whenever the handler
of a registered tool step succeeds after `d > maxStepMs` milliseconds,
the attempt still counts as a success — the run completes with the
output bound at the step id, no error event and no recorded failed
attempt, with the full duration `d` on the clock. -/
theorem c6_no_timeout (σ : Type) (reg : ToolRegistration σ) (pid : String) (t : ToolStep)
    (opts : RuntimeOptions σ) (procEnv : List (String × String)) (now₀ : Nat) (ext₀ : σ)
    (out : Val) (d : Nat) (x' : σ)
    (hname : t.toolName = reg.name) (hassign : t.assign = none)
    (hh : reg.handler t.input
        { env := opts.env.getD procEnv, vars := [], signalAbortAfterMs := opts.maxStepMs }
        ext₀ = (.ok out, d, x'))
    (hd : opts.maxStepMs < d) :
    exOk (runPlan { id := pid, steps := [.tool t] } [reg] opts procEnv now₀ ext₀).1 = true ∧
    varsGet (runPlan { id := pid, steps := [.tool t] } [reg] opts procEnv now₀
      ext₀).2.vars t.id = some out ∧
    (runPlan { id := pid, steps := [.tool t] } [reg] opts procEnv now₀
      ext₀).2.events.countP isErrorEv = 0 ∧
    (runPlan { id := pid, steps := [.tool t] } [reg] opts procEnv now₀
      ext₀).2.glog.countP (isGfailFor t.id) = 0 ∧
    opts.maxStepMs <
      (runPlan { id := pid, steps := [.tool t] } [reg] opts procEnv now₀ ext₀).2.now -
        now₀ := by
  have hfind : registryFind (planCtx [reg] opts procEnv).registry t.toolName = some reg := by
    simp [registryFind, planCtx, hname]
  have hstep := runStep_tool_ok (planCtx [reg] opts procEnv) reg t
    (planInit { id := pid, steps := [.tool t] } now₀ ext₀) out d x' hfind hassign hh
  have hrs : runSteps (planCtx [reg] opts procEnv)
      ({ id := pid, steps := [ThoughtStep.tool t] } : ThoughtPlan).steps
      (planInit { id := pid, steps := [ThoughtStep.tool t] } now₀ ext₀) =
      runSteps (planCtx [reg] opts procEnv) [ThoughtStep.tool t]
        (planInit { id := pid, steps := [ThoughtStep.tool t] } now₀ ext₀) := rfl
  rw [runPlan_eq, hrs, runSteps_singleton_ok _ _ _ _ hstep]
  simp only [addEvent, gpush, planInit, exOk]
  refine ⟨trivial, ?_, ?_, ?_, ?_⟩
  · exact varsGet_set_self [] t.id out
  · simp [isErrorEv]
  · simp [isGfailFor]
  · omega

/-- C6 witness: the hypotheses of the no-timeout theorem are satisfiable —
the `slow` tool, declaring 999999 ms of work against the default
120000 ms budget, run on a one-step plan. -/
theorem c6_witness :
    exOk (runPlan { id := "ps", steps := [.tool { id := "w", toolName := "slow", input := .vnone }] } [slowReg] defOpts [] 0 ()).1 = true ∧
    varsGet (runPlan { id := "ps", steps := [.tool { id := "w", toolName := "slow", input := .vnone }] } [slowReg] defOpts [] 0 ()).2.vars "w" = some (.vint 5) ∧
    (runPlan { id := "ps", steps := [.tool { id := "w", toolName := "slow", input := .vnone }] } [slowReg] defOpts [] 0 ()).2.events.countP isErrorEv = 0 ∧
    (runPlan { id := "ps", steps := [.tool { id := "w", toolName := "slow", input := .vnone }] } [slowReg] defOpts [] 0 ()).2.glog.countP (isGfailFor "w") = 0 ∧
    defOpts.maxStepMs <
      (runPlan { id := "ps", steps := [.tool { id := "w", toolName := "slow", input := .vnone }] } [slowReg] defOpts [] 0 ()).2.now - 0 :=
  c6_no_timeout Unit slowReg "ps" { id := "w", toolName := "slow", input := .vnone }
    defOpts [] 0 () (.vint 5) 999999 () rfl rfl rfl (by decide)

/-- C7 witness: the amended behaviour at `retries := 5`. -/
theorem c7_witness :
    registryFind ([] : List (ToolRegistration Unit)) "ghost" = none ∧
    runPlan ghostPlan ([] : List (ToolRegistration Unit)) { retries := 5 } [] 7 () =
      (.error "Tool not registered: ghost",
        { now := 7,
          events := [.planStart 7 "pg",
            .error 7 (some "g") "Tool not registered: ghost" none],
          vars := [], ext := (), glog := [.gfail "g"] }) :=
  ⟨rfl, c7_unregistered_no_retry Unit [] { retries := 5 } [] 7 ()
    { id := "g", toolName := "ghost", input := .vnone } [] "pg" none rfl⟩

end SeqThink
